import Mathlib

/-!
Shallow embedding of the willys-service receipt pipeline
(`services/willys-service/lib/willys_parse.js` and
`services/willys-service/server.js`).

JS numbers are idealised as exact rationals (`ℚ`); JS strings as Lean
`String`/`List Char`.  Regex-based helpers from the source are embedded as
character-level scanners that mirror the backtracking behaviour of the
concrete regular expressions used in the code.  `Math.round(x)` is embedded
as `⌊x + 1/2⌋` (its JS semantics for finite inputs).  All definitions are
structurally recursive so that concrete runs reduce in the kernel.
-/

namespace Willys

/-- Membership of a code point in an inclusive range, as a `Bool`. -/
def inR (lo hi n : Nat) : Bool := decide (lo ≤ n) && decide (n ≤ hi)

/-- The JS regex `\s` character class (whitespace, incl. NBSP and BOM),
tested on a `Char` code point. -/
def isWsC (c : Char) : Bool :=
  let n := c.toNat
  n == 32 || inR 9 13 n || n == 160 || n == 0x1680 || inR 0x2000 0x200A n ||
  n == 0x2028 || n == 0x2029 || n == 0x202F || n == 0x205F || n == 0x3000 ||
  n == 0xFEFF

/-- ASCII digit test (JS `\d`). -/
def isDigitC (c : Char) : Bool := inR 48 57 c.toNat

/-- ASCII letter test. -/
def isAsciiLetterC (c : Char) : Bool := inR 65 90 c.toNat || inR 97 122 c.toNat

/-- The character class `[A-Za-zÀ-ſ]` used by the parser to count
"letters" in a line. -/
def isLatinLetterC (c : Char) : Bool := isAsciiLetterC c || inR 0xC0 0x17F c.toNat

/-- JS regex word character (`\w`), used for `\b` word boundaries. -/
def isWordC (c : Char) : Bool := isAsciiLetterC c || isDigitC c || c.toNat == 95

/-- Case folding for the `/i` regex flag restricted to the Latin-1 letters the
source's patterns use: `A-Z` and `À-Þ` (except `×`) are mapped to their
lowercase code points; all other characters map to themselves. -/
def lcNat (c : Char) : Nat :=
  let n := c.toNat
  if 65 ≤ n ∧ n ≤ 90 then n + 32
  else if 192 ≤ n ∧ n ≤ 222 ∧ n ≠ 215 then n + 32
  else n

/-- Lower-casing of a character (used for `String.prototype.toLowerCase` on
the ASCII/Latin-1 unit names captured by the parser's regexes). -/
def lcChar (c : Char) : Char := Char.ofNat (lcNat c)

/-- Case-insensitive character comparison (`/i` flag). -/
def foldEq (c p : Char) : Bool := lcNat c == lcNat p

/-- Case-insensitive prefix test: does `s` start with pattern `p`? -/
def startsWithFold : List Char → List Char → Bool
  | [], _ => true
  | _ :: _, [] => false
  | p :: ps, c :: cs => foldEq c p && startsWithFold ps cs

/-- Maximal run of ASCII digits at the head: returns the run and the rest. -/
def takeDigits : List Char → (List Char × List Char)
  | [] => ([], [])
  | c :: cs =>
    if isDigitC c then
      let r := takeDigits cs
      (c :: r.1, r.2)
    else ([], c :: cs)

/-- Maximal run of `\s` characters at the head. -/
def takeWs : List Char → (List Char × List Char)
  | [] => ([], [])
  | c :: cs =>
    if isWsC c then
      let r := takeWs cs
      (c :: r.1, r.2)
    else ([], c :: cs)

/-- Is there any ASCII digit in the list?  (The `(?!.*\d)` lookahead of the
money regexes fails exactly when a digit occurs after the match.) -/
def hasDigit (s : List Char) : Bool := s.any isDigitC

/-- Numeric value of a digit run (most significant first). -/
def digitsVal (s : List Char) : Nat := s.foldl (fun a c => a * 10 + (c.toNat - 48)) 0

/-- Drop leading `\s` characters. -/
def dropWs : List Char → List Char
  | [] => []
  | c :: cs => if isWsC c then dropWs cs else c :: cs

/-- JS `String.prototype.trim` (its character set coincides with `\s` here). -/
def trimChars (s : List Char) : List Char := ((dropWs (dropWs s.reverse).reverse))

/-- JS `replace(/\s+/g, " ")`: collapse every whitespace run to one space.
The flag records whether the previous character was whitespace. -/
def collapseWsGo : Bool → List Char → List Char
  | _, [] => []
  | inWs, c :: cs =>
    if isWsC c then
      if inWs then collapseWsGo true cs else ' ' :: collapseWsGo true cs
    else c :: collapseWsGo false cs

/-- JS `replace(/\s+/g, " ")` on a whole string. -/
def collapseWs (s : List Char) : List Char := collapseWsGo false s

/-- `l.replace(/\s+/g, " ").trim()` — the per-line normalisation of
`parseGroceryLines`. -/
def normLine (s : List Char) : List Char := trimChars (collapseWs s)

/-! ### Exact-rational kernel

`Rat` field operations are irreducible in this library, so the executable
embedding performs its arithmetic through `mkRat`, `Rat.num`/`Rat.den` and
integer operations (which all reduce in the kernel), and the bridge lemmas
below relate them to the ordinary `ℚ` operations used in the statements. -/

/-- Addition on `ℚ` via `mkRat` (kernel-reducible). -/
def qadd (a b : ℚ) : ℚ := mkRat (a.num * (b.den : Int) + b.num * (a.den : Int)) (a.den * b.den)

/-- Negation on `ℚ` via `mkRat` (kernel-reducible). -/
def qneg (a : ℚ) : ℚ := mkRat (-a.num) a.den

/-- JS `Math.round` (round half towards `+∞`) on an exact rational. -/
def jsRound (a : ℚ) : Int := (2 * a.num + (a.den : Int)).fdiv (2 * (a.den : Int))

/-- Rounding to two decimals as the source writes it:
`Math.round(x * 100) / 100`. -/
def round2 (q : ℚ) : ℚ := (⌊q * 100 + 1/2⌋ : ℚ) / 100

/-- Multiplication by 100 via `mkRat` (kernel-reducible). -/
def qmul100 (a : ℚ) : ℚ := mkRat (a.num * 100) a.den

/-- Kernel-reducible form of `round2`. -/
def round2c (a : ℚ) : ℚ := mkRat (jsRound (qmul100 a)) 100

/-- `-Math.abs x` via `mkRat` (kernel-reducible). -/
def qnegAbs (a : ℚ) : ℚ := mkRat (-(a.num.natAbs : Int)) a.den

/-! ### `parseFloat` and `normalizeNumber`

`normalizeNumber(str)` in the source is
`parseFloat(String(str).replace(/\s| /g, "").replace(",", "."))`
filtered through `Number.isFinite`.  The JS builtin `parseFloat` is embedded
below: it skips leading whitespace, takes an optional sign, accepts an
`Infinity` literal or a decimal literal `digits [. digits] [e[±]digits]`,
parses the longest valid prefix, and yields NaN when no prefix parses.
Values are idealised as exact rationals. -/

/-- Result of the embedded `parseFloat`: NaN, a signed infinity, or a finite
value.  `Number.isFinite` accepts exactly the `val` case. -/
inductive PF where
  | nan : PF
  | inf (neg : Bool) : PF
  | val (q : ℚ) : PF
deriving DecidableEq

/-- The exponent suffix `(e|E)(+|-)?\d+` of a JS number literal; returns the
exponent and the rest, or `none` when the suffix is absent/malformed (in
which case `parseFloat` leaves it unconsumed). -/
def parseExpSuffix (s : List Char) : Option (Bool × Nat) :=
  match s with
  | c :: rest =>
    if c == 'e' || c == 'E' then
      match rest with
      | '+' :: r2 => (match takeDigits r2 with
          | ([], _) => none
          | (d, _) => some (false, digitsVal d))
      | '-' :: r2 => (match takeDigits r2 with
          | ([], _) => none
          | (d, _) => some (true, digitsVal d))
      | r2 => (match takeDigits r2 with
          | ([], _) => none
          | (d, _) => some (false, digitsVal d))
    else none
  | [] => none

/-- Value of mantissa `m` with `fracLen` decimal places and a parsed exponent
suffix, as an exact rational. -/
def pfValue (m : Nat) (fracLen : Nat) (rest : List Char) : ℚ :=
  match parseExpSuffix rest with
  | some (false, e) => mkRat (m * 10 ^ e) (10 ^ fracLen)
  | some (true, e) => mkRat m (10 ^ fracLen * 10 ^ e)
  | none => mkRat m (10 ^ fracLen)

/-- The unsigned decimal-literal part of `parseFloat`: `digits [. digits]`
(at least one digit overall) with optional exponent. -/
def parseFloatBody (s : List Char) : Option ℚ :=
  match takeDigits s with
  | (a, '.' :: r2) =>
    (match takeDigits r2 with
     | (b, r3) =>
       if a.isEmpty && b.isEmpty then none
       else some (pfValue (digitsVal a * 10 ^ b.length + digitsVal b) b.length r3))
  | ([], _) => none
  | (a, r1) => some (pfValue (digitsVal a) 0 r1)

/-- Case-sensitive test for the literal `Infinity`. -/
def startsWithInfinity (r : List Char) : Bool :=
  match r with
  | 'I' :: 'n' :: 'f' :: 'i' :: 'n' :: 'i' :: 't' :: 'y' :: _ => true
  | _ => false

/-- Sign-applied continuation of `parseFloat`. -/
def pfSigned (neg : Bool) (r : List Char) : PF :=
  if startsWithInfinity r then .inf neg
  else
    match parseFloatBody r with
    | none => .nan
    | some q => .val (if neg then qneg q else q)

/-- The JS builtin `parseFloat`, idealised over exact rationals. -/
def parseFloatJs (s : List Char) : PF :=
  match dropWs s with
  | '-' :: r => pfSigned true r
  | '+' :: r => pfSigned false r
  | r => pfSigned false r

/-- `replace(",", ".")` — JS `String.prototype.replace` with a string pattern
replaces only the first occurrence. -/
def replaceFirstComma : List Char → List Char
  | [] => []
  | c :: cs => if c == ',' then '.' :: cs else c :: replaceFirstComma cs

/-- `normalizeNumber` from `willys_parse.js`:
strip every `\s`/NBSP character, turn the first comma into a dot, parse with
`parseFloat`, and return the value only when it is finite. -/
def normalizeNumber (str : String) : Option ℚ :=
  let cleaned := str.data.filter (fun c => !isWsC c)
  match parseFloatJs (replaceFirstComma cleaned) with
  | .val q => some q
  | _ => none

/-! ### Money-token scanners

Character-level embeddings of the money-shaped regexes of `willys_parse.js`.
Each `...At` function attempts a match anchored at the head of its argument;
`findFirstSuffix` then reproduces the regex engine's left-to-right scan for
the first position at which a (possibly backtracking) match succeeds. -/

/-- Scan positions left to right, returning the first anchored match. -/
def findFirstSuffix {β : Type} (f : List Char → Option β) : List Char → Option β
  | [] => f []
  | c :: cs =>
    match f (c :: cs) with
    | some b => some b
    | none => findFirstSuffix f cs

/-- `,\d{2}` at the head: returns the three matched characters and the rest. -/
def commaTwo (s : List Char) : Option (List Char × List Char) :=
  match s with
  | ',' :: d1 :: d2 :: rest =>
    if isDigitC d1 && isDigitC d2 then some ([',', d1, d2], rest) else none
  | _ => none

/-- `,\d{2}(?!.*\d)` at the head: `commaTwo` plus the no-digit-after
lookahead of the money regexes. -/
def tryTail (s : List Char) : Option (List Char × List Char) :=
  match commaTwo s with
  | some (t, rest) => if hasDigit rest then none else some (t, rest)
  | none => none

/-- One thousands group `[  ]\d{3}` at the head. -/
def grpParse (s : List Char) : Option (List Char × List Char) :=
  match s with
  | c :: d1 :: d2 :: d3 :: rest =>
    if (c == ' ' || c.toNat == 160) && isDigitC d1 && isDigitC d2 && isDigitC d3 then
      some ([c, d1, d2, d3], rest)
    else none
  | _ => none

/-- All prefixes of the greedy `(?:[  ]\d{3})*` iteration, in increasing
group count: each entry is (consumed characters, rest). -/
def grpStatesF : Nat → List Char → List (List Char × List Char)
  | 0, s => [([], s)]
  | fuel + 1, s =>
    match grpParse s with
    | none => [([], s)]
    | some (g, rest) => ([], s) :: (grpStatesF fuel rest).map (fun p => (g ++ p.1, p.2))

/-- Alternative 1 of the money regex, `\d{1,3}(?:[  ]\d{3})*,\d{2}` with
the final lookahead; group iterations are tried longest first as the greedy
engine does. -/
def moneyAlt1 (s : List Char) : Option (List Char × List Char) :=
  match takeDigits s with
  | ([], _) => none
  | (r, rest) =>
    if r.length ≤ 3 then
      (grpStatesF rest.length rest).reverse.firstM
        (fun st => (tryTail st.2).map (fun t => (r ++ st.1 ++ t.1, t.2)))
    else none

/-- Alternative 2 of the money regex, `\d+,\d{2}` with the final lookahead. -/
def moneyAlt2 (s : List Char) : Option (List Char × List Char) :=
  match takeDigits s with
  | ([], _) => none
  | (r, rest) => (tryTail rest).map (fun t => (r ++ t.1, t.2))

/-- The money regex
`(\d{1,3}(?:[  ]\d{3})*,\d{2}|\d+,\d{2})(?!.*\d)` anchored at the head:
alternative 1 (with all its backtracks) is tried before alternative 2. -/
def moneyAt (s : List Char) : Option (List Char × List Char) :=
  match moneyAlt1 s with
  | some m => some m
  | none => moneyAlt2 s

/-- `lastMoney` from `willys_parse.js`: value of the first (and, thanks to
the lookahead, last) money-shaped token with no digit after it. -/
def lastMoney (line : String) : Option ℚ :=
  match findFirstSuffix moneyAt line.data with
  | some (tok, _) => normalizeNumber (String.mk tok)
  | none => none

/-- `raw.replace(moneyRegex, "")`: removes the first match of the money
regex (the match the engine finds), keeping everything else. -/
def removeFirstMoney : List Char → List Char
  | [] => []
  | c :: cs =>
    match moneyAt (c :: cs) with
    | some (_, rest) => rest
    | none => c :: removeFirstMoney cs

/-- `-?\d+,\d{2}(?!.*\d)` anchored at the head (the discount-value regex). -/
def discountAt (s : List Char) : Option (List Char × List Char) :=
  match s with
  | '-' :: r => (moneyAlt2 r).map (fun p => ('-' :: p.1, p.2))
  | r => moneyAlt2 r

/-- `discountValue` from `willys_parse.js`: the first match of
`-?\d+,\d{2}(?!.*\d)`, normalised and forced non-positive with
`-Math.abs(...)` (JS coerces a `null` normalisation to `0`). -/
def discountValue (line : String) : Option ℚ :=
  match findFirstSuffix discountAt line.data with
  | some (tok, _) => some (qnegAbs ((normalizeNumber (String.mk tok)).getD 0))
  | none => none

/-- `\d+,\d{2}` (no lookahead) at the head. -/
def moneyPlain (s : List Char) : Option (List Char × List Char) :=
  match takeDigits s with
  | ([], _) => none
  | (r, rest) => (commaTwo rest).map (fun t => (r ++ t.1, t.2))

/-- `(\d+)\s*st\*\s*(\d+,\d{2})\s+(\d+,\d{2})` (case-insensitive) anchored at
the head: returns the three captures. -/
def multiBuyAt (s : List Char) : Option (List Char × List Char × List Char) :=
  match takeDigits s with
  | ([], _) => none
  | (d1, r1) =>
    match dropWs r1 with
    | s1 :: t1 :: '*' :: r3 =>
      if foldEq s1 's' && foldEq t1 't' then
        match moneyPlain (dropWs r3) with
        | some (m1, r5) =>
          (match takeWs r5 with
           | ([], _) => none
           | (_ :: _, r6) =>
             match moneyPlain r6 with
             | some (m2, _) => some (d1, m1, m2)
             | none => none)
        | none => none
      else none
    | _ => none

/-- Record built by `parseMultiBuy`. -/
structure MB where
  count : Nat
  unitPrice : Option ℚ
  total : Option ℚ
deriving DecidableEq

/-- `parseMultiBuy` from `willys_parse.js`. -/
def parseMultiBuy (line : String) : Option MB :=
  match findFirstSuffix multiBuyAt line.data with
  | some (d, m1, m2) =>
    some { count := digitsVal d,
           unitPrice := normalizeNumber (String.mk m1),
           total := normalizeNumber (String.mk m2) }
  | none => none

/-- `raw.replace(/(\d+)\s*st\*\s*\d+,\d{2}\s+\d+,\d{2}.*/i, "")`: cut the
line from the first multi-buy match to the end (the trailing `.*`). -/
def cutMultiBuy : List Char → List Char
  | [] => []
  | c :: cs =>
    match multiBuyAt (c :: cs) with
    | some _ => []
    | none => c :: cutMultiBuy cs

/-- `\d+,\d+` at the head (weight-line quantity). -/
def qtyParse (s : List Char) : Option (List Char × List Char) :=
  match takeDigits s with
  | ([], _) => none
  | (a, ',' :: r2) =>
    (match takeDigits r2 with
     | ([], _) => none
     | (b, r3) => some (a ++ ',' :: b, r3))
  | _ => none

/-- The unit alternation `(kg|g|l|cl|ml)` (case-insensitive); no two
alternatives can match the same text, so ordered alternation reduces to this
case split. -/
def unitParse (s : List Char) : Option (List Char × List Char) :=
  match s with
  | a :: b :: r =>
    if foldEq a 'k' && foldEq b 'g' then some ([a, b], r)
    else if foldEq a 'c' && foldEq b 'l' then some ([a, b], r)
    else if foldEq a 'm' && foldEq b 'l' then some ([a, b], r)
    else if foldEq a 'g' then some ([a], b :: r)
    else if foldEq a 'l' then some ([a], b :: r)
    else none
  | [a] => if foldEq a 'g' || foldEq a 'l' then some ([a], []) else none
  | [] => none

/-- The per-unit alternation `(kg|l)` after `kr/`. -/
def unit2Parse (s : List Char) : Option (List Char × List Char) :=
  match s with
  | a :: b :: r =>
    if foldEq a 'k' && foldEq b 'g' then some ([a, b], r)
    else if foldEq a 'l' then some ([a], b :: r)
    else none
  | [a] => if foldEq a 'l' then some ([a], []) else none
  | [] => none

/-- `(\d+,\d+)\s*(kg|g|l|cl|ml)\s*\*\s*(\d+,\d{2})\s*kr\/(kg|l)\s+(\d+,\d{2})`
anchored at the head: returns the five captures. -/
def weightAt (s : List Char) :
    Option (List Char × List Char × List Char × List Char × List Char) :=
  match qtyParse s with
  | none => none
  | some (q, r1) =>
    match unitParse (dropWs r1) with
    | none => none
    | some (u, r3) =>
      match dropWs r3 with
      | '*' :: r5 =>
        (match moneyPlain (dropWs r5) with
         | none => none
         | some (up, r7) =>
           match dropWs r7 with
           | k :: rr :: '/' :: r9 =>
             if foldEq k 'k' && foldEq rr 'r' then
               match unit2Parse r9 with
               | none => none
               | some (u2, r10) =>
                 (match takeWs r10 with
                  | ([], _) => none
                  | (_ :: _, r11) =>
                    match moneyPlain r11 with
                    | none => none
                    | some (tot, _) => some (q, u, up, u2, tot))
             else none
           | _ => none)
      | _ => none

/-- Record built by `parseWeightLine` (`m[2]`/`m[4]` are lower-cased by the
source). -/
structure WL where
  qty : Option ℚ
  unit : String
  unitPrice : Option ℚ
  unitPriceUnit : String
  total : Option ℚ
deriving DecidableEq

/-- `parseWeightLine` from `willys_parse.js`. -/
def parseWeightLine (line : String) : Option WL :=
  match findFirstSuffix weightAt line.data with
  | some (q, u, up, u2, tot) =>
    some { qty := normalizeNumber (String.mk q),
           unit := String.mk (u.map lcChar),
           unitPrice := normalizeNumber (String.mk up),
           unitPriceUnit := String.mk (u2.map lcChar),
           total := normalizeNumber (String.mk tot) }
  | none => none

/-- `isDiscountLine` test 1: `/^\d+\s*\*\s*Rab:/i`. -/
def discTest1 (s : List Char) : Bool :=
  match takeDigits s with
  | ([], _) => false
  | (_ :: _, r1) =>
    match dropWs r1 with
    | '*' :: r2 => startsWithFold "Rab:".data (dropWs r2)
    | _ => false

/-- `isDiscountLine` test 2: `/^\s*(Rabatt:|Rab:|W\s*Plus:)/i`. -/
def discTest2 (s : List Char) : Bool :=
  match dropWs s with
  | [] => false
  | c :: r2 =>
    startsWithFold "Rabatt:".data (c :: r2) || startsWithFold "Rab:".data (c :: r2) ||
    (foldEq c 'W' && startsWithFold "Plus:".data (dropWs r2))

/-- `isDiscountLine` from `willys_parse.js`. -/
def isDiscountLine (line : String) : Bool :=
  discTest1 line.data || discTest2 line.data

/-! ### `cleanName` and its `\b`-anchored replacements -/

/-- Is a `\b` boundary satisfied before a word character, given the previous
character (`none` at the start of the string)? -/
def bdryOK : Option Char → Bool
  | none => true
  | some p => !isWordC p

/-- Is a `\b` boundary satisfied after a word character, given the rest of
the string? -/
def bdryEnd : List Char → Bool
  | [] => true
  | c :: _ => !isWordC c

/-- Regex `.` (any character but a line terminator). -/
def dotAny (c : Char) : Bool :=
  !(c == '\n' || c == '\r' || c.toNat == 0x2028 || c.toNat == 0x2029)

/-- `replace(/\b(W\s*Plus:.*)$/i, "")`: cut from the first boundary-anchored
`W`-plus marker to the end of the line. -/
def cutWPlus (prev : Option Char) : List Char → List Char
  | [] => []
  | c :: cs =>
    if bdryOK prev && foldEq c 'W' && startsWithFold "Plus:".data (dropWs cs) then []
    else c :: cutWPlus (some c) cs

/-- Anchored match of `\bMAX\d+\b` (given the previous character); returns
the rest after the match. -/
def maxMatch (prev : Option Char) (s : List Char) : Option (List Char) :=
  if bdryOK prev then
    match s with
    | m :: a :: x :: r =>
      if foldEq m 'M' && foldEq a 'A' && foldEq x 'X' then
        match takeDigits r with
        | ([], _) => none
        | (_ :: _, rest) => if bdryEnd rest then some rest else none
      else none
    | _ => none
  else none

/-- `replace(/\bMAX\d+\b/i, "")`: remove the first match. -/
def cutMax (prev : Option Char) : List Char → List Char
  | [] => []
  | c :: cs =>
    match maxMatch prev (c :: cs) with
    | some rest => rest
    | none => c :: cutMax (some c) cs

/-- Anchored match of `\bUTGÅ.R\b` (the `.` is the regex any-character);
returns the rest after the match. -/
def utgMatch (prev : Option Char) (s : List Char) : Option (List Char) :=
  if bdryOK prev then
    match s with
    | u :: t :: g :: aa :: d :: r :: rest =>
      if foldEq u 'U' && foldEq t 'T' && foldEq g 'G' && foldEq aa 'Å' &&
         dotAny d && foldEq r 'R' && bdryEnd rest then
        some rest
      else none
    | _ => none
  else none

/-- `replace(/\bUTGÅ.R\b/i, "")`: remove the first match. -/
def cutUtg (prev : Option Char) : List Char → List Char
  | [] => []
  | c :: cs =>
    match utgMatch prev (c :: cs) with
    | some rest => rest
    | none => c :: cutUtg (some c) cs

/-- Anchored match of `\bKLIPP\b`; returns the rest after the match. -/
def klippMatch (prev : Option Char) (s : List Char) : Option (List Char) :=
  if bdryOK prev then
    match s with
    | k :: l :: i :: p1 :: p2 :: rest =>
      if foldEq k 'K' && foldEq l 'L' && foldEq i 'I' && foldEq p1 'P' &&
         foldEq p2 'P' && bdryEnd rest then
        some rest
      else none
    | _ => none
  else none

/-- `replace(/\bKLIPP\b/i, "")`: remove the first match. -/
def cutKlipp (prev : Option Char) : List Char → List Char
  | [] => []
  | c :: cs =>
    match klippMatch prev (c :: cs) with
    | some rest => rest
    | none => c :: cutKlipp (some c) cs

/-- Anchored match of `\bRab(?:att)?:` (greedy optional `att`). -/
def rabMatch (prev : Option Char) (s : List Char) : Bool :=
  if bdryOK prev then
    match s with
    | r :: a :: b :: rest =>
      if foldEq r 'R' && foldEq a 'A' && foldEq b 'B' then
        startsWithFold "att:".data rest ||
        (match rest with
         | ':' :: _ => true
         | _ => false)
      else false
    | _ => false
  else false

/-- `replace(/\bRab(?:att)?:.*$/i, "")`: cut from the first boundary-anchored
discount marker to the end of the line. -/
def cutRab (prev : Option Char) : List Char → List Char
  | [] => []
  | c :: cs =>
    if rabMatch prev (c :: cs) then []
    else c :: cutRab (some c) cs

/-- `cleanName` from `willys_parse.js`: the five replacements in source
order, then whitespace collapsing and trimming. -/
def cleanName (name : String) : String :=
  let s1 := cutWPlus none name.data
  let s2 := cutMax none s1
  let s3 := cutUtg none s2
  let s4 := cutKlipp none s3
  let s5 := cutRab none s4
  String.mk (trimChars (collapseWs s5))

/-! ### `parseGroceryLines` -/

/-- `split(/\r?\n/)`. -/
def splitLines : List Char → List (List Char)
  | [] => [[]]
  | '\r' :: '\n' :: rest => [] :: splitLines rest
  | '\n' :: rest => [] :: splitLines rest
  | c :: rest =>
    match splitLines rest with
    | [] => [[c]]
    | seg :: segs => (c :: seg) :: segs

/-- Case-insensitive pattern-consuming prefix test: the rest after `pat`. -/
def stripFold : List Char → List Char → Option (List Char)
  | [], r => some r
  | _ :: _, [] => none
  | p :: ps, c :: cs => if foldEq c p then stripFold ps cs else none

/-- Prefix rule ending in `\b` (e.g. `/^summa\b/i`). -/
def pfxWordB (pat : String) (l : List Char) : Bool :=
  match stripFold pat.data l with
  | some r => bdryEnd r
  | none => false

/-- Plain case-insensitive prefix rule (e.g. `/^betalm/i`). -/
def pfx (pat : String) (l : List Char) : Bool := startsWithFold pat.data l

/-- Case-insensitive full-line rule (e.g. `/^klipp$/i`). -/
def fullLine (pat : String) (l : List Char) : Bool := stripFold pat.data l == some []

/-- `/^org\.?nr\b/i`. -/
def orgRule (l : List Char) : Bool :=
  match stripFold "org".data l with
  | some ('.' :: r2) => pfxWordB "nr" r2
  | some r => pfxWordB "nr" r
  | none => false

/-- `/^totalt \d+ varor$/i`. -/
def totaltVarorRule (l : List Char) : Bool :=
  match stripFold "totalt ".data l with
  | some r =>
    (match takeDigits r with
     | ([], _) => false
     | (_ :: _, r2) => stripFold " varor".data r2 == some [])
  | none => false

/-- `/^[-=]{6,}$/i`. -/
def ruleLine (l : List Char) : Bool :=
  decide (6 ≤ l.length) && l.all (fun c => c == '-' || c == '=')

/-- The boilerplate `drop` rule set of `parseGroceryLines`, in source
order. -/
def dropRule (l : List Char) : Bool :=
  pfxWordB "summa" l || pfxWordB "totalt" l || pfxWordB "moms" l ||
  pfxWordB "att betala" l || pfxWordB "datum" l || pfxWordB "kvitto" l ||
  pfxWordB "kassa" l || pfxWordB "butik" l || pfxWordB "betalning" l ||
  pfxWordB "kund" l || orgRule l || pfx "løga priser" l ||
  pfx "��ppettider" l || pfx "välkommen" l ||
  pfx "kundservice" l || pfx "willys plus" l || pfxWordB "mottaget" l ||
  pfx "betalm" l || pfx "moms%" l || totaltVarorRule l || ruleLine l ||
  fullLine "utgør" l || fullLine "klipp" l ||
  pfx "med willys plus har du sparat:" l

/-- Count of non-overlapping `/,\d{2}/g` matches. -/
def countCdd : List Char → Nat
  | ',' :: a :: b :: rest =>
    if isDigitC a && isDigitC b then countCdd rest + 1
    else countCdd (a :: b :: rest)
  | _ :: rest => countCdd rest
  | [] => 0

/-- `isMostlyNumbers` from `parseGroceryLines`: no letters, at least four
digits and at least two money-shaped fragments. -/
def isMostlyNumbers (l : List Char) : Bool :=
  (l.filter isLatinLetterC).length == 0 &&
  decide (4 ≤ (l.filter isDigitC).length) && decide (2 ≤ countCdd l)

/-- A line survives the filter if no drop rule fires and it is not mostly
numeric. -/
def keepLine (l : List Char) : Bool := !dropRule l && !isMostlyNumbers l

/-- `split(/(?<=\S)\s{2,}(?=\S)/g)`: resegmentation on internal runs of at
least two whitespace characters.  `prevNonWs` tracks the look-behind; the
fuel is the input length (each step consumes at least one character). -/
def resplitF : Nat → Bool → List Char → List Char → List (List Char)
  | 0, _, cur, s => [cur.reverse ++ s]
  | _ + 1, _, cur, [] => [cur.reverse]
  | fuel + 1, prevNonWs, cur, c :: cs =>
    if isWsC c then
      match takeWs (c :: cs) with
      | (run, rest) =>
        if decide (2 ≤ run.length) && prevNonWs && !rest.isEmpty then
          cur.reverse :: resplitF fuel false [] rest
        else resplitF fuel false (run.reverse ++ cur) rest
    else resplitF fuel true (c :: cur) cs

/-- `parseGroceryLines` from `willys_parse.js`: split on line breaks,
normalise and filter; if at most three candidate lines survive, resplit the
raw text on internal multi-space runs instead. -/
def parseGroceryLines (txt : String) : List String :=
  let lines := ((splitLines txt.data).map normLine).filter (fun l => !l.isEmpty)
  let kept := lines.filter keepLine
  if kept.length ≤ 3 then
    (((((resplitF txt.data.length false [] txt.data).map normLine).filter
        (fun l => !l.isEmpty)).filter keepLine)).map String.mk
  else kept.map String.mk

/-! ### `parseItemsFromLines` -/

/-- A committed line item.  `Option` fields mirror properties that may be
absent on the corresponding JS object. -/
structure Item where
  name : String
  qty : Option ℚ
  unit : String
  unitPrice : Option ℚ := none
  unitPriceUnit : Option String := none
  price : Option ℚ
  discount : Option ℚ
  total : Option ℚ
  raw : String
deriving DecidableEq

/-- The open "pending item" register (its JS object never carries `total`
before being committed). -/
structure Pending where
  name : String
  qty : Option ℚ
  unit : String
  unitPrice : Option ℚ
  unitPriceUnit : Option String
  price : Option ℚ
  discount : Option ℚ
  raw : String
deriving DecidableEq

/-- State of the reconstruction loop: committed items plus the pending
register. -/
structure PState where
  items : List Item
  pending : Option Pending
deriving DecidableEq

/-- The per-line skip of `parseItemsFromLines`
(`/^(Delavst...|SPARA KVITTOT|...|Kassa:)/i`). -/
def skipLineTest (s : List Char) : Bool :=
  pfx "DelavstÄ„Æ“ning" s || pfx "SPARA KVITTOT" s ||
  pfx "Å-ppettider" s || pfx "VÄ‚Å¡lkommen Øter!" s ||
  pfx "Du betjÄ“Å¡nades av" s || pfx "Kassa:" s

/-- `/^[A-ZÀ-ſ0-9].*/i`: does the line start with a letter or digit? -/
def bareNameTest (s : List Char) : Bool :=
  match s with
  | [] => false
  | c :: _ => isAsciiLetterC c || isDigitC c || inR 0xC0 0x17F c.toNat

/-- The name `"OKÄ´NT"` (`"OKÄ´NT"` in the source). -/
def unknownName : String := "OKÄ´NT"

/-- `commitPending`: compute the pending total, append it to the item list
and clear the register. -/
def commitPending (st : PState) : PState :=
  match st.pending with
  | none => st
  | some p =>
    { items := st.items ++
        [{ name := p.name, qty := p.qty, unit := p.unit, unitPrice := p.unitPrice,
           unitPriceUnit := p.unitPriceUnit, price := p.price, discount := p.discount,
           total := some (round2c (qadd (p.price.getD 0) (p.discount.getD 0))),
           raw := p.raw }],
      pending := none }

/-- Add a discount value to the last committed item. -/
def updateLast (f : Item → Item) : List Item → List Item
  | [] => []
  | [x] => [f x]
  | x :: y :: xs => x :: updateLast f (y :: xs)

/-- The synthetic discount-only item created when a discount line precedes
any item. -/
def rabattItem (raw : String) (val : ℚ) : Item :=
  { name := "RABATT", qty := some 1, unit := "st", price := some 0,
    discount := some val, total := some val, raw := raw }

/-- Pending register opened by a weight line with no forerunner. -/
def weightPending (raw : String) (w : WL) : Pending :=
  { name := unknownName, qty := w.qty, unit := w.unit, unitPrice := w.unitPrice,
    unitPriceUnit := some w.unitPriceUnit, price := w.total, discount := some 0,
    raw := raw }

/-- `Object.assign(pending, {...})` for a continuation weight line. -/
def mergeWeight (p : Pending) (w : WL) : Pending :=
  { p with qty := w.qty, unit := w.unit, unitPrice := w.unitPrice,
           unitPriceUnit := some w.unitPriceUnit, price := w.total }

/-- Item committed directly by a multi-buy line. -/
def multiBuyItem (raw : String) (mb : MB) : Item :=
  { name := (if (cleanName (String.mk (trimChars (cutMultiBuy raw.data)))) = "" then
               unknownName
             else cleanName (String.mk (trimChars (cutMultiBuy raw.data)))),
    qty := some (mb.count : ℚ), unit := "st", unitPrice := mb.unitPrice,
    unitPriceUnit := some "st", price := mb.total, discount := some 0,
    total := mb.total, raw := raw }

/-- Name extracted from a generic priced line: the line with its final money
token removed, trimmed, whitespace-normalised and cleaned. -/
def priceLineName (raw : String) : String :=
  let noPrice := trimChars (removeFirstMoney raw.data)
  let joined := String.mk (normLine noPrice)
  if cleanName joined = "" then unknownName else cleanName joined

/-- Pending register opened by a priced or bare-name line whose successor is
a weight line (the continuation case; `raw` records both lines). -/
def contPending (name : String) (raw next : String) (w : WL) : Pending :=
  { name := name, qty := w.qty, unit := w.unit, unitPrice := w.unitPrice,
    unitPriceUnit := some w.unitPriceUnit, price := w.total, discount := some 0,
    raw := raw ++ "\n" ++ next }

/-- Item committed directly by a generic priced line. -/
def pricedItem (raw : String) (name : String) (price : ℚ) : Item :=
  { name := name, qty := some 1, unit := "st", price := some price,
    discount := some 0, total := some price, raw := raw }

/-- One iteration of the `parseItemsFromLines` loop on line `raw`, with
`next?` the following line (if any).  The returned flag reports whether the
following line was consumed as a weight-line continuation (`i++`). -/
def stepLine (raw : String) (next? : Option String) (st : PState) : PState × Bool :=
  if skipLineTest raw.data then (st, false)
  else if isDiscountLine raw then
    match discountValue raw with
    | none => (st, false)
    | some val =>
      match st.pending with
      | some p =>
        ({ st with pending := some { p with discount := some (qadd (p.discount.getD 0) val) } },
         false)
      | none =>
        if st.items.isEmpty then ({ st with items := [rabattItem raw val] }, false)
        else
          let f := fun it => { it with discount := some (qadd (it.discount.getD 0) val) }
          ({ st with items := updateLast f st.items }, false)
  else
    match parseWeightLine raw, st.pending with
    | some w, some p => ({ st with pending := some (mergeWeight p w) }, false)
    | some w, none => ({ st with pending := some (weightPending raw w) }, false)
    | none, _ =>
      let st1 := commitPending st
      match parseMultiBuy raw with
      | some mb => ({ st1 with items := st1.items ++ [multiBuyItem raw mb] }, false)
      | none =>
        match lastMoney raw with
        | some price =>
          (match next? with
           | some next =>
             match parseWeightLine next with
             | some nw => ({ st1 with pending := some (contPending (priceLineName raw) raw next nw) }, true)
             | none => ({ st1 with items := st1.items ++ [pricedItem raw (priceLineName raw) price] }, false)
           | none => ({ st1 with items := st1.items ++ [pricedItem raw (priceLineName raw) price] }, false))
        | none =>
          if bareNameTest raw.data then
            match next? with
            | some next =>
              (match parseWeightLine next with
               | some nw => ({ st1 with pending := some (contPending (cleanName raw) raw next nw) }, true)
               | none => (st1, false))
            | none => (st1, false)
          else (st1, false)

/-- The `parseItemsFromLines` loop over the line list. -/
def parseLoop : List String → PState → PState
  | [], st => st
  | [raw], st => (stepLine raw none st).1
  | raw :: next :: rest, st =>
    match stepLine raw (some next) st with
    | (st1, true) => parseLoop rest st1
    | (st1, false) => parseLoop (next :: rest) st1

/-- The reconciliation pass: every item's total becomes
`Math.round((price + discount) * 100) / 100`. -/
def finalizeItem (it : Item) : Item :=
  { it with total := some (round2c (qadd (it.price.getD 0) (it.discount.getD 0))) }

/-- The output filter of `parseItemsFromLines`: drop empty or marketing
names and pure numeric noise. -/
def keepItem (it : Item) : Bool :=
  if it.name = "" || pfx "Med Willys Plus har du sparat" it.name.data then false
  else
    let letters := (it.name.data.filter isLatinLetterC).length
    let digits := (it.name.data.filter isDigitC).length
    !(letters == 0 && decide (2 ≤ digits))

/-- `parseItemsFromLines` from `willys_parse.js`. -/
def parseItemsFromLines (lines : List String) : List Item :=
  let st := commitPending (parseLoop lines { items := [], pending := none })
  (st.items.map finalizeItem).filter keepItem

/-- Result record of `parseReceiptText`. -/
structure ParsedReceipt where
  items : List Item
  lineCount : Nat
  itemCount : Nat
  total : Option ℚ
deriving DecidableEq

/-- `parseReceiptText` from `willys_parse.js`. -/
def parseReceiptText (rawText : String) : ParsedReceipt :=
  if rawText = "" then { items := [], lineCount := 0, itemCount := 0, total := none }
  else
    let lines := parseGroceryLines rawText
    let items := parseItemsFromLines lines
    let total := items.foldl (fun sum it => qadd sum (it.total.getD 0)) 0
    { items := items, lineCount := lines.length, itemCount := items.length,
      total := some (round2c total) }

/-! ### `getJsonWithRetry` (server.js)

The network is modelled as a map from attempt number to that attempt's
outcome: either the request threw, or it produced a response with `ok`
status, content type, body text and — since `JSON.parse` is a JS builtin
applied to the body — the body's parse result. -/

/-- Outcome of one HTTP attempt as observed by `getJsonWithRetry`. -/
inductive ApiAttempt (α : Type) where
  | netErr (msg : String) : ApiAttempt α
  | resp (ok : Bool) (status : Int) (ctype : String) (body : String)
      (parsed : Option α) : ApiAttempt α

/-- The errors `getJsonWithRetry` can throw, tagged by cause. -/
inductive ApiError where
  | net (msg : String) : ApiError
  | http (status : Int) : ApiError
  | htmlBody : ApiError
  | jsonParse : ApiError
  | unknown : ApiError
deriving DecidableEq

/-- Case-insensitive substring test (JS `String.prototype.includes` after
`toLowerCase`). -/
def containsFold (pat : List Char) : List Char → Bool
  | [] => startsWithFold pat []
  | c :: cs => startsWithFold pat (c :: cs) || containsFold pat cs

/-- The semantic-failure test of `getJsonWithRetry`: content type contains
`text/html`, or the body matches `/^\s*<!doctype html/i`. -/
def htmlLike (ctype body : String) : Bool :=
  containsFold "text/html".data ctype.data ||
  startsWithFold "<!doctype html".data (dropWs body.data)

/-- The `try` body of one attempt: HTTP error, HTML-where-JSON-expected and
parse failure all throw; only a parsed JSON body returns. -/
def runAttempt {α : Type} : ApiAttempt α → Except ApiError α
  | .netErr m => .error (.net m)
  | .resp ok status ctype body parsed =>
    if !ok then .error (.http status)
    else if htmlLike ctype body then .error .htmlBody
    else
      match parsed with
      | some v => .ok v
      | none => .error .jsonParse

/-- Trace of a `getJsonWithRetry` run: final outcome, number of attempts
made, and the backoff sleeps actually performed (in ms). -/
structure RetryTrace (α : Type) where
  result : Except ApiError α
  attemptsUsed : Nat
  sleeps : List Nat

/-- The retry loop: `attempt` counts from 0, `remaining` is
`retries + 1 - attempt`; after a failure the loop sleeps
`min(2000, 300 * attempt)` ms when that value is non-zero and a retry is
still allowed. -/
def getJsonWithRetryGo {α : Type} (env : Nat → ApiAttempt α) (retries : Nat) :
    Nat → Nat → Option ApiError → List Nat → RetryTrace α
  | attempt, 0, lastErr, sleeps =>
    { result := .error (lastErr.getD .unknown), attemptsUsed := attempt, sleeps := sleeps }
  | attempt, remaining + 1, _lastErr, sleeps =>
    match runAttempt (env attempt) with
    | .ok v => { result := .ok v, attemptsUsed := attempt + 1, sleeps := sleeps }
    | .error e =>
      let backoff := min 2000 (300 * attempt)
      let sleeps1 := if attempt < retries && backoff != 0 then sleeps ++ [backoff] else sleeps
      getJsonWithRetryGo env retries (attempt + 1) remaining (some e) sleeps1

/-- `getJsonWithRetry` from `server.js` (the `while (attempt <= retries)`
loop makes `retries + 1` attempts at most). -/
def getJsonWithRetry {α : Type} (env : Nat → ApiAttempt α) (retries : Nat) : RetryTrace α :=
  getJsonWithRetryGo env retries 0 (retries + 1) none []

/-! ### `fetchReceiptDescriptors` (server.js)

Pages are modelled at the level of the parsed JSON the loop inspects; the
`server` argument maps a requested `currentPage` value to the page response
(or to `none` when `getJsonWithRetry` exhausts its retries and throws). -/

/-- The slice of a `store` object the descriptor builder reads. -/
structure StoreObj where
  id : Option String
  code : Option String
  name : Option String
deriving DecidableEq

/-- The slice of one `loyaltyTransactionsInPage` record the descriptor
builder reads.  `Option` fields model absent properties; an empty string is
falsy, as in JS. -/
structure Txn where
  digitalReceiptAvailable : Bool
  digitalReceiptReference : String
  bookingDate : Option String
  orderDate : Option String
  creationTime : Option String
  storeCustomerId : Option String
  storeId : Option String
  store : Option StoreObj
  receiptSource : Option String
  memberCardNumber : Option String
  cardNumber : Option String
  memberCard : Option String
deriving DecidableEq

/-- JS truthiness on an optional string (empty string is falsy). -/
def truthyS : Option String → Option String
  | some s => if s = "" then none else some s
  | none => none

/-- JS `a || b || ... || null`: the first truthy value. -/
def firstTruthy : List (Option String) → Option String
  | [] => none
  | x :: rest =>
    match truthyS x with
    | some s => some s
    | none => firstTruthy rest

/-- `/^\d{4}-\d{2}-\d{2}$/`. -/
def isYmdS (s : List Char) : Bool :=
  match s with
  | [a, b, c, d, '-', e, f, '-', g, h] =>
    isDigitC a && isDigitC b && isDigitC c && isDigitC d && isDigitC e &&
    isDigitC f && isDigitC g && isDigitC h
  | _ => false

/-- `reference.split("T")[0]` guarded by `reference.includes("T")`. -/
def beforeT : List Char → Option (List Char)
  | [] => none
  | 'T' :: _ => some []
  | c :: cs => (beforeT cs).map (fun r => c :: r)

/-- `toYmdSafe`: `new Date(v)` followed by local-date formatting, idealised
as extraction of a valid `YYYY-MM-DD` prefix (standalone or followed by a
`T` time part); other JS date formats and timezone effects are outside the
model and none of the verified claims depend on them. -/
def toYmdSafe (v : String) : Option String :=
  match v.data with
  | y1 :: y2 :: y3 :: y4 :: '-' :: m1 :: m2 :: '-' :: d1 :: d2 :: rest =>
    let pfxOk := isDigitC y1 && isDigitC y2 && isDigitC y3 && isDigitC y4 &&
      isDigitC m1 && isDigitC m2 && isDigitC d1 && isDigitC d2
    let mv := digitsVal [m1, m2]
    let dv := digitsVal [d1, d2]
    let restOk := rest.isEmpty || rest.headD ' ' == 'T'
    if pfxOk && restOk && inR 1 12 mv && inR 1 31 dv then
      some (String.mk [y1, y2, y3, y4, '-', m1, m2, '-', d1, d2])
    else none
  | _ => none

/-- Hexadecimal digit (uppercase, as `encodeURIComponent` emits). -/
def hexDigit (n : Nat) : Char := if n < 10 then Char.ofNat (48 + n) else Char.ofNat (55 + n)

/-- UTF-8 bytes of a code point. -/
def utf8Bytes (n : Nat) : List Nat :=
  if n < 0x80 then [n]
  else if n < 0x800 then [0xC0 + n / 64, 0x80 + n % 64]
  else if n < 0x10000 then [0xE0 + n / 4096, 0x80 + n / 64 % 64, 0x80 + n % 64]
  else [0xF0 + n / 262144, 0x80 + n / 4096 % 64, 0x80 + n / 64 % 64, 0x80 + n % 64]

/-- The JS builtin `encodeURIComponent`. -/
def encodeURIComponent (s : String) : String :=
  String.mk (s.data.flatMap (fun c =>
    if isAsciiLetterC c || isDigitC c ||
       (c == '-' || c == '_' || c == '.' || c == '!' || c == '~' || c == '*' ||
        c == '\'' || c == '(' || c == ')') then
      [c]
    else
      (utf8Bytes c.toNat).flatMap (fun b => ['%', hexDigit (b / 16), hexDigit (b % 16)])))

/-- A receipt descriptor. -/
structure Desc where
  receipt_date : String
  store_name : String
  digitalreceipt_url : String
  reference : String
deriving DecidableEq

/-- Descriptor construction for one transaction record, mirroring the body
of the `for (const t of results)` loop: unavailable/unreferenced records are
skipped, the date is taken from the reference's date-shaped prefix or the
first parsing fallback timestamp, and missing date, store id or loyalty
card skips the record. -/
def processTxn (t : Txn) : Option Desc :=
  if !t.digitalReceiptAvailable || t.digitalReceiptReference = "" then none
  else
    let reference := t.digitalReceiptReference
    let refPfx := beforeT reference.data
    let datePart :=
      match refPfx with
      | some p =>
        if isYmdS p then some (String.mk p)
        else firstTruthy [t.bookingDate.bind toYmdSafe, t.orderDate.bind toYmdSafe,
                          t.creationTime.bind toYmdSafe]
      | none =>
        firstTruthy [t.bookingDate.bind toYmdSafe, t.orderDate.bind toYmdSafe,
                     t.creationTime.bind toYmdSafe]
    let storeIdv := firstTruthy [t.storeCustomerId, t.storeId,
      t.store.bind (fun st => firstTruthy [st.id, st.code])]
    let source := (truthyS t.receiptSource).getD "aws"
    let memberCard := firstTruthy [t.memberCardNumber, t.cardNumber, t.memberCard]
    match datePart, storeIdv, memberCard with
    | some dp, some sid, some mc =>
      some { receipt_date := dp,
             store_name := ((t.store.bind (fun st => truthyS st.name)).getD "Willys"),
             digitalreceipt_url :=
               "https://www.willys.se/axfood/rest/order/orders/digitalreceipt/" ++
               encodeURIComponent reference ++ "?date=" ++ encodeURIComponent dp ++
               "&storeId=" ++ encodeURIComponent sid ++ "&source=" ++
               encodeURIComponent source ++ "&memberCardNumber=" ++ encodeURIComponent mc,
             reference := reference }
    | _, _, _ => none

/-- One page response as the loop reads it (`paginationData` fields default
to `1` and the requested page when absent). -/
structure PageResp where
  loyaltyTransactionsInPage : List Txn
  numberOfPages : Option Int
  currentPage : Option Int

/-- The final `// de-duplicate by URL just in case` filter with its `seen`
set. -/
def dedupGo (seen : List String) : List Desc → List Desc
  | [] => []
  | d :: ds =>
    if seen.contains d.digitalreceipt_url then dedupGo seen ds
    else d :: dedupGo (d.digitalreceipt_url :: seen) ds

/-- De-duplication of the accumulated descriptor list by content URL. -/
def dedupByUrl (l : List Desc) : List Desc := dedupGo [] l

/-- Why a modelled fetch run ended. -/
inductive StopReason where
  | maxPagesStop : StopReason
  | lastPageStop : StopReason
  | fetchError : StopReason
  | fuelOut : StopReason
deriving DecidableEq

/-- Trace of a `fetchReceiptDescriptors` run: the `(currentPage, pageSize)`
query parameters of every GET issued, the returned descriptor list (`none`
when the run threw — or when the model's fuel ran out, marked `fuelOut`),
and the stop reason. -/
structure FetchTrace where
  requests : List (Int × Int)
  result : Option (List Desc)
  stop : StopReason

/-- JS truthiness of the `maxPages` option (`null`/`0` disable the bound). -/
def mpActive : Option Int → Bool
  | none => false
  | some m => m != 0

/-- The `while (true)` page loop of `fetchReceiptDescriptors`.  `fuel` bounds
the number of iterations the model executes; each executed iteration is a
faithful image of one loop body run. -/
def fetchGo (server : Int → Option PageResp) (maxPages : Option Int) (pageSize : Int) :
    Nat → Int → List Desc → List (Int × Int) → FetchTrace
  | 0, _, _, reqs => { requests := reqs, result := none, stop := .fuelOut }
  | fuel + 1, page, out, reqs =>
    if mpActive maxPages && decide (maxPages.getD 0 ≤ page) then
      { requests := reqs, result := some (dedupByUrl out), stop := .maxPagesStop }
    else
      let reqs1 := reqs ++ [(page, min 100 pageSize)]
      match server page with
      | none => { requests := reqs1, result := none, stop := .fetchError }
      | some resp =>
        let out1 := out ++ resp.loyaltyTransactionsInPage.filterMap processTxn
        let nPages := resp.numberOfPages.getD 1
        let serverPage := resp.currentPage.getD page
        if decide (nPages ≤ serverPage + 1) then
          { requests := reqs1, result := some (dedupByUrl out1), stop := .lastPageStop }
        else fetchGo server maxPages pageSize fuel (serverPage + 1) out1 reqs1

/-- `fetchReceiptDescriptors` from `server.js`, as a trace-producing model
starting at page 0. -/
def fetchReceiptDescriptors (server : Int → Option PageResp) (pageSize : Int)
    (maxPages : Option Int) (fuel : Nat) : FetchTrace :=
  fetchGo server maxPages pageSize fuel 0 [] []

/-! ### Warm context pool (server.js)

`warmContexts` is a JS `Map` (insertion-ordered); entries pair a browser
context — identified here by the numeric handle `ctx` — with its
`lastUsed` timestamp.  `closed` records the handles closed by eviction. -/

/-- One pool entry: context handle and `lastUsed` timestamp. -/
structure PoolEntry where
  ctx : Nat
  lastUsed : Int
deriving DecidableEq

/-- Pool state: insertion-ordered entries, a fresh-handle counter for
`browser.newContext()`, and the contexts closed so far. -/
structure PoolState where
  entries : List (String × PoolEntry)
  nextCtx : Nat
  closed : List Nat
deriving DecidableEq

/-- Stable insertion (ascending `lastUsed`) used to model
`sort((a, b) => a[1].lastUsed - b[1].lastUsed)`, which is a stable sort. -/
def insertByLU (x : String × PoolEntry) : List (String × PoolEntry) → List (String × PoolEntry)
  | [] => [x]
  | y :: ys => if y.2.lastUsed < x.2.lastUsed then y :: insertByLU x ys else x :: y :: ys

/-- Stable sort of the entry array by ascending `lastUsed`. -/
def sortByLU : List (String × PoolEntry) → List (String × PoolEntry)
  | [] => []
  | x :: xs => insertByLU x (sortByLU xs)

/-- `evictWarmContexts` from `server.js`: when the pool exceeds the limit,
close and remove least-recently-used entries until the limit holds. -/
def evictWarmContexts (limit : Nat) (st : PoolState) : PoolState :=
  if st.entries.length ≤ limit then st
  else
    let sorted := sortByLU st.entries
    let victims := sorted.take (st.entries.length - limit)
    { entries := st.entries.filter (fun e => !(victims.map Prod.fst).contains e.1),
      nextCtx := st.nextCtx,
      closed := st.closed ++ victims.map (fun v => v.2.ctx) }

/-- Refresh the `lastUsed` timestamp of one key in place. -/
def touchEntry (key : String) (now : Int) : List (String × PoolEntry) → List (String × PoolEntry)
  | [] => []
  | e :: es =>
    if e.1 = key then (e.1, { e.2 with lastUsed := now }) :: es
    else e :: touchEntry key now es

/-- `getWarmContext` from `server.js`: anonymous or visible (non-headless)
requests bypass the pool; an existing entry is refreshed and returned;
otherwise a fresh context is created, inserted, and the pool evicted. -/
def getWarmContext (limit : Nat) (userId : Option String) (headless : Bool) (now : Int)
    (st : PoolState) : PoolState × Option Nat :=
  match truthyS userId with
  | none => (st, none)
  | some uid =>
    if !headless then (st, none)
    else
      match st.entries.find? (fun e => e.1 = uid) with
      | some e => ({ st with entries := touchEntry uid now st.entries }, some e.2.ctx)
      | none =>
        let ctx := st.nextCtx
        let st1 : PoolState :=
          { entries := st.entries ++ [(uid, { ctx := ctx, lastUsed := now })],
            nextCtx := st.nextCtx + 1, closed := st.closed }
        (evictWarmContexts limit st1, some ctx)

/-! ### `runBankIdLogin` event stream (willys_parse.js)

The engine's progress callback is modelled by the list of events one
invocation emits, as a function of an execution-path description: whether a
stored session exists, how the token-only fast path went, and how the
UI-driven flow went (which network responses the taps observed, whether the
tab switch or QR click failed, whether polling completed before the
deadline). -/

/-- Events passed to the `onEvent` callback. -/
inductive Ev where
  | log : Ev
  | qrImage : Ev
  | qrToken : Ev
  | collect : Ev
  | done (ok : Bool) : Ev
  | error : Ev
deriving DecidableEq

/-- Terminal events per the spec: `done` or `error`. -/
def isTerminal : Ev → Bool
  | .done _ => true
  | .error => true
  | _ => false

/-- Outcome of `tryBankIdTokenFlow`. -/
inductive TokenOutcome where
  /-- The QR endpoint did not yield a `bankid.` token (or the flow threw
  before emitting anything): the function returns `null`. -/
  | noToken : TokenOutcome
  /-- Token obtained, polling saw `collects` intermediate statuses, then the
  deadline passed: the function returns `{ok: false}`. -/
  | timeout (collects : Nat) : TokenOutcome
  /-- Token obtained, polling saw `collects` intermediate statuses, then
  `COMPLETE`: the function returns `{ok: true}`. -/
  | complete (collects : Nat) : TokenOutcome

/-- Events emitted by `tryBankIdTokenFlow` itself (one `qr-image`, then one
`collect` per intermediate status). -/
def tokenEvents : TokenOutcome → List Ev
  | .noToken => []
  | .timeout n => Ev.qrImage :: List.replicate n Ev.collect
  | .complete n => Ev.qrImage :: List.replicate n Ev.collect

/-- Did the token flow return `{ok: true}`? -/
def tokenOk : TokenOutcome → Bool
  | .complete _ => true
  | _ => false

/-- Events the network taps and the QR snapshot timer may emit while the
full flow is polling (`attachNetworkTaps` forwards a `done {ok: true}` to
the stream whenever a `collect-login` response reports `COMPLETE`). -/
inductive WinEv where
  | wQrImage : WinEv
  | wQrToken : WinEv
  | wCollect : WinEv
  | wDoneOk : WinEv
deriving DecidableEq

/-- Injection of window events into stream events. -/
def winToEv : WinEv → Ev
  | .wQrImage => .qrImage
  | .wQrToken => .qrToken
  | .wCollect => .collect
  | .wDoneOk => .done true

/-- How the UI-driven part of `runBankIdLogin` unfolds. -/
inductive FullOutcome where
  /-- `page.goto` (or an earlier automation step) threw: the `catch` block
  emits the only event. -/
  | gotoThrows : FullOutcome
  /-- `switchToMobiltBankID` failed: an `error` event is emitted inline and
  the subsequent `throw` lands in the `catch`, which emits `error` again. -/
  | switchFail : FullOutcome
  /-- The flow reached the polling wait.  `clickedOk` is the QR-click
  outcome (a failure emits an inline `error` but does not abort), `window`
  lists the tap/snapshot events during the wait, and `completed` tells
  whether the waiter saw `COMPLETE` before `timeoutMs`. -/
  | proceed (clickedOk : Bool) (window : List WinEv) (completed : Bool) : FullOutcome

/-- Events of the UI-driven flow: the `log`s of `mark`/`log` calls, the
inline `error` for a failed click, the polling window, the success log, and
the final `done` with the waiter's verdict. -/
def fullEvents : FullOutcome → List Ev
  | .gotoThrows => [Ev.log, Ev.error]
  | .switchFail => [Ev.log, Ev.log, Ev.log, Ev.error] ++ [Ev.error]
  | .proceed clickedOk window completed =>
    [Ev.log, Ev.log, Ev.log, Ev.log] ++
    (if clickedOk then [Ev.log] else [Ev.error]) ++
    window.map winToEv ++
    (if completed then [Ev.log] else []) ++ [Ev.done completed]

/-- An execution path of `runBankIdLogin`. -/
structure LoginPath where
  /-- Is a stored session artifact available (enabling the fast path)? -/
  hasSession : Bool
  /-- Fast-path outcome (only relevant when `hasSession`). -/
  token : TokenOutcome
  /-- Full-path outcome (only relevant when the fast path does not return). -/
  full : FullOutcome

/-- The event stream of one `runBankIdLogin` invocation along path `p`:
a successful fast path emits its own events plus a single terminal `done`;
otherwise the fast-path events (if any) are followed by the UI-driven
flow's events. -/
def bankIdEvents (p : LoginPath) : List Ev :=
  if p.hasSession then
    if tokenOk p.token then tokenEvents p.token ++ [Ev.done true]
    else tokenEvents p.token ++ fullEvents p.full
  else fullEvents p.full

/-- Number of terminal events in a stream. -/
def terminalCount (evs : List Ev) : Nat := (evs.filter isTerminal).length

/-! ### Concrete inputs used by witnesses and counterexamples -/

/-- The receipt text of the spec's weight-line scenario, exactly as the
scenario presents it: a name line followed by a weight line. -/
def c8txt : String := "Ekologisk Banan\n0,505 kg * 39,90 kr/kg 20,15"

/-- The single item `parseReceiptText` produces for `c8txt` (the two lines
are merged by the resegmentation fallback, so the weight line opens an
anonymous pending item). -/
def c8item : Item :=
  { name := unknownName, qty := some (mkRat 505 1000), unit := "kg",
    unitPrice := some (mkRat 3990 100), unitPriceUnit := some "kg",
    price := some (mkRat 2015 100), discount := some 0,
    total := some (mkRat 2015 100),
    raw := "Ekologisk Banan 0,505 kg * 39,90 kr/kg 20,15" }

/-- A server whose pages always report `currentPage = 0` and
`numberOfPages = 3`, regardless of the requested page. -/
def badServer : Int → Option PageResp :=
  fun _ => some { loyaltyTransactionsInPage := [], numberOfPages := some 3,
                  currentPage := some 0 }

/-- A transaction with a digital receipt, a date-shaped reference prefix,
a store id and a loyalty card. -/
def wTxn1 : Txn :=
  { digitalReceiptAvailable := true, digitalReceiptReference := "2024-01-02T0001",
    bookingDate := none, orderDate := none, creationTime := none,
    storeCustomerId := some "S1", storeId := none, store := none,
    receiptSource := none, memberCardNumber := some "M1", cardNumber := none,
    memberCard := none }

/-- A second transaction differing only in its reference. -/
def wTxn2 : Txn := { wTxn1 with digitalReceiptReference := "2024-01-03T0002" }

/-- A single-page server returning `wTxn1` twice and `wTxn2` once. -/
def okServer : Int → Option PageResp :=
  fun _ => some { loyaltyTransactionsInPage := [wTxn1, wTxn1, wTxn2],
                  numberOfPages := some 1, currentPage := some 0 }

/-- The deduplicated descriptor list `okServer` yields. -/
def okDescs : List Desc :=
  [{ receipt_date := "2024-01-02", store_name := "Willys",
     digitalreceipt_url := "https://www.willys.se/axfood/rest/order/orders/digitalreceipt/2024-01-02T0001?date=2024-01-02&storeId=S1&source=aws&memberCardNumber=M1",
     reference := "2024-01-02T0001" },
   { receipt_date := "2024-01-03", store_name := "Willys",
     digitalreceipt_url := "https://www.willys.se/axfood/rest/order/orders/digitalreceipt/2024-01-03T0002?date=2024-01-03&storeId=S1&source=aws&memberCardNumber=M1",
     reference := "2024-01-03T0002" }]

/-- An environment whose attempts all fail with distinct HTTP errors. -/
def envW : Nat → ApiAttempt Nat :=
  fun k => .resp false (400 + (k : Int)) "" "" none

/-- Adding a discount value to an item (used to state the last-committed-item
update of the discount branch). -/
def addDiscount (val : ℚ) (it : Item) : Item :=
  { it with discount := some (it.discount.getD 0 + val) }

/-- A server echoes the pagination protocol when each response either omits
`currentPage` or reports exactly the requested page. -/
def echoes (server : Int → Option PageResp) : Prop :=
  ∀ p r, server p = some r → r.currentPage = none ∨ r.currentPage = some p

/-- A well-behaved echo server used by witnesses: three pages, correct
`currentPage` echo. -/
def echoServer : Int → Option PageResp :=
  fun p => some { loyaltyTransactionsInPage := [], numberOfPages := some 3,
                  currentPage := some p }

/-! ### Supporting lemmas -/

theorem num_cast_eq (q : ℚ) : (q.num : ℚ) = q * q.den := by
  have hq : ((q.den : ℚ)) ≠ 0 := by exact_mod_cast q.den_ne_zero
  have h := Rat.num_div_den q
  rw [div_eq_iff hq] at h
  exact h

theorem qadd_eq (a b : ℚ) : qadd a b = a + b := by
  have ha : ((a.den : ℚ)) ≠ 0 := by exact_mod_cast a.den_ne_zero
  have hb : ((b.den : ℚ)) ≠ 0 := by exact_mod_cast b.den_ne_zero
  rw [qadd, Rat.mkRat_eq_div]
  push_cast
  rw [div_eq_iff (by simp [ha, hb] : ((a.den : ℚ)) * (b.den : ℚ) ≠ 0)]
  rw [num_cast_eq a, num_cast_eq b]
  ring

theorem qneg_eq (a : ℚ) : qneg a = -a := by
  have ha : ((a.den : ℚ)) ≠ 0 := by exact_mod_cast a.den_ne_zero
  rw [qneg, Rat.mkRat_eq_div]
  push_cast
  rw [div_eq_iff ha, num_cast_eq a]
  ring

theorem jsRound_eq (a : ℚ) : jsRound a = ⌊a + 1/2⌋ := by
  have hden : (0 : ℤ) ≤ 2 * (a.den : ℤ) := by positivity
  have ha : ((a.den : ℚ)) ≠ 0 := by exact_mod_cast a.den_ne_zero
  rw [jsRound, Int.fdiv_eq_ediv _ hden]
  have h2 : ((2 * a.den : ℕ) : ℤ) = 2 * (a.den : ℤ) := by push_cast; ring
  rw [← h2, ← Rat.floor_intCast_div_natCast]
  congr 1
  push_cast
  rw [div_eq_iff (by simp [ha] : (2 : ℚ) * (a.den : ℚ) ≠ 0)]
  rw [num_cast_eq a]
  ring

theorem qmul100_eq (a : ℚ) : qmul100 a = a * 100 := by
  have ha : ((a.den : ℚ)) ≠ 0 := by exact_mod_cast a.den_ne_zero
  rw [qmul100, Rat.mkRat_eq_div]
  push_cast
  rw [div_eq_iff ha, num_cast_eq a]
  ring

theorem round2c_eq (a : ℚ) : round2c a = round2 a := by
  rw [round2c, round2, Rat.mkRat_eq_div, jsRound_eq, qmul100_eq]
  norm_num

theorem qnegAbs_eq (a : ℚ) : qnegAbs a = -|a| := by
  have ha : ((a.den : ℚ)) ≠ 0 := by exact_mod_cast a.den_ne_zero
  rw [qnegAbs, Rat.mkRat_eq_div]
  rcases le_or_lt 0 a.num with h | h
  · rw [abs_of_nonneg (Rat.num_nonneg.mp h)]
    rw [Int.natAbs_of_nonneg h]
    push_cast
    rw [div_eq_iff ha, neg_mul, num_cast_eq a]
  · have haneg : a < 0 := by
      by_contra hc
      push_neg at hc
      exact absurd (Rat.num_nonneg.mpr hc) (by omega)
    rw [abs_of_neg haneg, neg_neg]
    rw [Int.ofNat_natAbs_of_nonpos (le_of_lt h)]
    push_cast
    rw [div_eq_iff ha, num_cast_eq a]
    ring

theorem qnegAbs_nonpos (a : ℚ) : qnegAbs a ≤ 0 := by
  rw [qnegAbs_eq]
  simp [abs_nonneg]

theorem list_getLast?_concat {α : Type} (l : List α) (a : α) : (l ++ [a]).getLast? = some a := by
  simp

theorem terminalCount_concat (l : List Ev) (e : Ev) (he : isTerminal e = true) :
    1 ≤ terminalCount (l ++ [e]) := by
  simp [terminalCount, List.filter_append, he]

/-- Every `fullEvents` stream ends in a terminal event. -/
theorem fullEvents_decomp (f : FullOutcome) :
    ∃ l e, fullEvents f = l ++ [e] ∧ isTerminal e = true := by
  cases f with
  | gotoThrows => exact ⟨[Ev.log], Ev.error, rfl, rfl⟩
  | switchFail => exact ⟨[Ev.log, Ev.log, Ev.log, Ev.error], Ev.error, rfl, rfl⟩
  | proceed clickedOk window completed =>
    refine ⟨[Ev.log, Ev.log, Ev.log, Ev.log] ++
      (if clickedOk then [Ev.log] else [Ev.error]) ++ window.map winToEv ++
      (if completed then [Ev.log] else []), Ev.done completed, ?_, rfl⟩
    simp [fullEvents]

/-! ### Claims -/

/-- **C7.** `normalizeNumber` maps `"12,50"` to `12.50` and `"1 234,56"`
(with an ordinary or non-breaking thousands space) to `1234.56`, and any
input whose cleaned form `parseFloat` cannot parse yields `null`, never
zero. -/
theorem claim_C7_normalizeNumber :
    normalizeNumber "12,50" = some (12.50 : ℚ) ∧
    normalizeNumber "1 234,56" = some (1234.56 : ℚ) ∧
    normalizeNumber "1\u00A0234,56" = some (1234.56 : ℚ) ∧
    (∀ s : String,
      parseFloatJs (replaceFirstComma (s.data.filter (fun c => !isWsC c))) = PF.nan →
      normalizeNumber s = none) := by
  refine ⟨?_, ?_, ?_, ?_⟩
  · have h : normalizeNumber "12,50" = some (mkRat 1250 100) := by decide
    rw [h, Rat.mkRat_eq_div]
    norm_num
  · have h : normalizeNumber "1 234,56" = some (mkRat 123456 100) := by decide
    rw [h, Rat.mkRat_eq_div]
    norm_num
  · have h : normalizeNumber "1\u00A0234,56" = some (mkRat 123456 100) := by decide
    rw [h, Rat.mkRat_eq_div]
    norm_num
  · intro s h
    simp only [normalizeNumber, h]

theorem claim_C7_normalizeNumber_witness :
    parseFloatJs (replaceFirstComma ((String.data "abc").filter (fun c => !isWsC c))) = PF.nan ∧
    normalizeNumber "abc" = none :=
  ⟨by decide, claim_C7_normalizeNumber.2.2.2 "abc" (by decide)⟩

/-- **C8 (counterexample).** On exactly the two-line text of the scenario,
`parseReceiptText` does *not* produce an item named `"Ekologisk Banan"`:
the two kept lines are at most three, so the resegmentation fallback merges
them into one line and the weight line opens an anonymous (`OKÄ´NT`) item.
Quantity, unit, unit price and total still match the scenario. -/
theorem claim_C8_counterexample :
    (parseReceiptText c8txt).items.map Item.name = [unknownName] ∧
    unknownName ≠ "Ekologisk Banan" ∧
    ¬ ((parseReceiptText c8txt).items.map Item.name = ["Ekologisk Banan"]) := by
  refine ⟨by decide, by decide, by decide⟩

/-- **C8 (amended).** When the two scenario lines reach the line-level
parser as separate lines (as they do whenever the receipt has more than
three candidate lines), the result is exactly one item
`{name := "Ekologisk Banan", qty := 0.505, unit := "kg",
unitPrice := 39.90, total := 20.15}`. -/
theorem claim_C8_amended :
    (parseItemsFromLines ["Ekologisk Banan", "0,505 kg * 39,90 kr/kg 20,15"]).map
      (fun it => (it.name, it.qty, it.unit, it.unitPrice, it.total)) =
    [("Ekologisk Banan", some (0.505 : ℚ), "kg", some (39.90 : ℚ), some (20.15 : ℚ))] := by
  have h : (parseItemsFromLines ["Ekologisk Banan", "0,505 kg * 39,90 kr/kg 20,15"]).map
      (fun it => (it.name, it.qty, it.unit, it.unitPrice, it.total)) =
    [("Ekologisk Banan", some (mkRat 505 1000), "kg", some (mkRat 3990 100),
      some (mkRat 2015 100))] := by decide
  rw [h]
  norm_num [Rat.mkRat_eq_div]

/-- **C2 (counterexample).** A single `runBankIdLogin` invocation can emit
two terminal events: when the BankID tab is not found, the inline `error`
is followed by the `catch` handler's `error`; and on a full-path success the
network tap's forwarded `done` is followed by the function's own final
`done`. -/
theorem claim_C2_counterexample :
    terminalCount (bankIdEvents ⟨false, .noToken, .switchFail⟩) = 2 ∧
    terminalCount (bankIdEvents ⟨false, .noToken, .proceed true [.wDoneOk] true⟩) = 2 := by
  exact ⟨by decide, by decide⟩

/-- **C2 (amended).** Along every execution path, `runBankIdLogin` emits at
least one terminal event and its event stream ends with a terminal event
(`done` or `error`); but more than one terminal event may be emitted. -/
theorem claim_C2_amended (p : LoginPath) :
    1 ≤ terminalCount (bankIdEvents p) ∧
    ∃ e, (bankIdEvents p).getLast? = some e ∧ isTerminal e = true := by
  obtain ⟨l, e, he, ht⟩ := fullEvents_decomp p.full
  by_cases hs : p.hasSession
  · by_cases hok : tokenOk p.token
    · rw [bankIdEvents, if_pos hs, if_pos hok]
      exact ⟨terminalCount_concat _ _ rfl, Ev.done true, list_getLast?_concat _ _, rfl⟩
    · rw [bankIdEvents, if_pos hs, if_neg hok, he, ← List.append_assoc]
      exact ⟨terminalCount_concat _ _ ht, e, list_getLast?_concat _ _, ht⟩
  · rw [bankIdEvents, if_neg hs, he]
    exact ⟨terminalCount_concat _ _ ht, e, list_getLast?_concat _ _, ht⟩

theorem claim_C3_counterexample :
    (fetchReceiptDescriptors badServer 100 none 3).requests.map Prod.fst = [0, 1, 1] ∧
    ¬ ((fetchReceiptDescriptors badServer 100 none 3).requests.map Prod.fst).Nodup ∧
    ¬ List.Chain' (· < ·)
        ((fetchReceiptDescriptors badServer 100 none 3).requests.map Prod.fst) := by
  have h : (fetchReceiptDescriptors badServer 100 none 3).requests.map Prod.fst = [0, 1, 1] := by
    decide
  refine ⟨h, by decide, ?_⟩
  intro hch
  rw [h] at hch
  simp [List.chain'_cons] at hch

theorem fetchGo_chain (server : Int → Option PageResp) (h : echoes server)
    (maxPages : Option Int) (pageSize : Int) :
    ∀ fuel page out reqs,
      List.Chain' (· < ·) (reqs.map Prod.fst ++ [page]) →
      List.Chain' (· < ·)
        ((fetchGo server maxPages pageSize fuel page out reqs).requests.map Prod.fst) ∧
      ((fetchGo server maxPages pageSize fuel page out reqs).stop = .lastPageStop →
        ∃ p r, ((fetchGo server maxPages pageSize fuel page out reqs).requests.map
            Prod.fst).getLast? = some p ∧ server p = some r ∧
          r.numberOfPages.getD 1 ≤ r.currentPage.getD p + 1) ∧
      ((fetchGo server maxPages pageSize fuel page out reqs).stop = .maxPagesStop →
        mpActive maxPages = true) := by
  intro fuel
  induction fuel with
  | zero =>
    intro page out reqs hch
    refine ⟨(List.chain'_append.mp hch).1, ?_, ?_⟩ <;> intro hstop <;> simp [fetchGo] at hstop
  | succ n ih =>
    intro page out reqs hch
    by_cases hmp : (mpActive maxPages && decide (maxPages.getD 0 ≤ page)) = true
    · rw [fetchGo, if_pos hmp]
      refine ⟨(List.chain'_append.mp hch).1, by intro hstop; simp at hstop, ?_⟩
      intro _
      have hmp1 : mpActive maxPages = true ∧ maxPages.getD 0 ≤ page := by simpa using hmp
      exact hmp1.1
    · rw [fetchGo, if_neg hmp]
      rcases hs : server page with _ | resp
      · refine ⟨?_, by intro hstop; simp at hstop, by intro hstop; simp at hstop⟩
        simpa using hch
      · simp only []
        have hsp : resp.currentPage.getD page = page := by
          rcases h page resp hs with hc | hc <;> simp [hc]
        by_cases hlast : (decide (resp.numberOfPages.getD 1 ≤ resp.currentPage.getD page + 1)) = true
        · rw [if_pos hlast]
          refine ⟨by simpa using hch, ?_, by intro hstop; simp at hstop⟩
          intro _
          refine ⟨page, resp, by simp, hs, by simpa using of_decide_eq_true hlast⟩
        · rw [if_neg hlast]
          have hreq1 : (reqs ++ [(page, min 100 pageSize)]).map Prod.fst ++
              [resp.currentPage.getD page + 1] = (reqs.map Prod.fst ++ [page]) ++ [page + 1] := by
            rw [hsp]
            simp
          apply ih
          rw [hreq1, List.chain'_append]
          refine ⟨hch, List.chain'_singleton _, ?_⟩
          intro x hx y hy
          simp only [List.getLast?_concat, Option.mem_def, Option.some.injEq] at hx
          simp only [List.head?_cons, Option.mem_def, Option.some.injEq] at hy
          subst hx
          subst hy
          omega

/-- **C3 (amended).** Provided the server echoes the requested page (or
omits `currentPage`, which defaults to it), the requested page indices are
strictly increasing — so no page is ever requested twice; and the run stops
with `lastPageStop` only when the last requested page's response satisfies
`numberOfPages ≤ currentPage + 1` (the code uses `>=`, not equality), or at
the `maxPages` bound when that option is truthy. -/
theorem claim_C3_amended (server : Int → Option PageResp) (pageSize : Int)
    (maxPages : Option Int) (fuel : Nat) (h : echoes server) :
    List.Chain' (· < ·)
      ((fetchReceiptDescriptors server pageSize maxPages fuel).requests.map Prod.fst) ∧
    ((fetchReceiptDescriptors server pageSize maxPages fuel).stop = .lastPageStop →
      ∃ p r, ((fetchReceiptDescriptors server pageSize maxPages fuel).requests.map
          Prod.fst).getLast? = some p ∧ server p = some r ∧
        r.numberOfPages.getD 1 ≤ r.currentPage.getD p + 1) ∧
    ((fetchReceiptDescriptors server pageSize maxPages fuel).stop = .maxPagesStop →
      mpActive maxPages = true) :=
  fetchGo_chain server h maxPages pageSize fuel 0 [] [] (by simp)

theorem claim_C3_amended_witness :
    echoes echoServer ∧
    (fetchReceiptDescriptors echoServer 100 none 5).requests.map Prod.fst = [0, 1, 2] ∧
    List.Chain' (· < ·)
      ((fetchReceiptDescriptors echoServer 100 none 5).requests.map Prod.fst) := by
  have hecho : echoes echoServer := by
    intro p r hr
    cases hr
    right
    rfl
  exact ⟨hecho, by decide, (claim_C3_amended echoServer 100 none 5 hecho).1⟩

/-- De-duplication by URL yields pairwise-distinct URLs, none of which was
already seen. -/
theorem dedupGo_nodup : ∀ (l : List Desc) (seen : List String),
    ((dedupGo seen l).map Desc.digitalreceipt_url).Nodup ∧
    ∀ d ∈ dedupGo seen l, d.digitalreceipt_url ∉ seen := by
  intro l
  induction l with
  | nil => intro seen; simp [dedupGo]
  | cons d ds ih =>
    intro seen
    by_cases hd : seen.contains d.digitalreceipt_url
    · rw [dedupGo, if_pos hd]
      exact ih seen
    · rw [dedupGo, if_neg hd]
      have hd1 : d.digitalreceipt_url ∉ seen := by simpa using hd
      refine ⟨?_, ?_⟩
      · rw [List.map_cons, List.nodup_cons]
        refine ⟨?_, (ih (d.digitalreceipt_url :: seen)).1⟩
        intro hx
        obtain ⟨x, hx1, hx2⟩ := List.mem_map.mp hx
        have hnot := (ih (d.digitalreceipt_url :: seen)).2 x hx1
        rw [hx2] at hnot
        exact hnot (List.mem_cons_self _ _)
      · intro x hx
        rcases List.mem_cons.mp hx with rfl | hx2
        · exact hd1
        · intro hc
          exact (ih (d.digitalreceipt_url :: seen)).2 x hx2 (List.mem_cons_of_mem _ hc)

/-- Any descriptor list the page loop returns is the de-duplication of its
accumulator. -/
theorem fetchGo_result_dedup (server : Int → Option PageResp) (maxPages : Option Int)
    (pageSize : Int) :
    ∀ fuel page out reqs l,
      (fetchGo server maxPages pageSize fuel page out reqs).result = some l →
      ∃ acc, l = dedupByUrl acc := by
  intro fuel
  induction fuel with
  | zero => intro page out reqs l hl; simp [fetchGo] at hl
  | succ n ih =>
    intro page out reqs l hl
    rw [fetchGo] at hl
    by_cases hmp : (mpActive maxPages && decide (maxPages.getD 0 ≤ page)) = true
    · rw [if_pos hmp] at hl
      simp at hl
      exact ⟨out, hl.symm⟩
    · rw [if_neg hmp] at hl
      rcases hs : server page with _ | resp
      · simp only [hs] at hl
        simp at hl
      · simp only [hs] at hl
        by_cases hlast :
            (decide (resp.numberOfPages.getD 1 ≤ resp.currentPage.getD page + 1)) = true
        · rw [if_pos hlast] at hl
          simp at hl
          exact ⟨_, hl.symm⟩
        · rw [if_neg hlast] at hl
          exact ih _ _ _ _ hl

/-- **C4.** Whatever pages the server returns, the descriptor list
`fetchReceiptDescriptors` produces contains no two descriptors with the
same `digitalreceipt_url`. -/
theorem claim_C4_dedup (server : Int → Option PageResp) (pageSize : Int)
    (maxPages : Option Int) (fuel : Nat) (l : List Desc)
    (h : (fetchReceiptDescriptors server pageSize maxPages fuel).result = some l) :
    (l.map Desc.digitalreceipt_url).Nodup := by
  obtain ⟨acc, rfl⟩ := fetchGo_result_dedup server maxPages pageSize fuel 0 [] [] l h
  exact (dedupGo_nodup acc []).1

theorem claim_C4_dedup_witness :
    (fetchReceiptDescriptors okServer 100 none 3).result = some okDescs ∧
    (okDescs.map Desc.digitalreceipt_url).Nodup :=
  ⟨by decide, claim_C4_dedup okServer 100 none 3 okDescs (by decide)⟩

/-- Every request the page loop issues carries the clamped page size. -/
theorem fetchGo_pageSize (server : Int → Option PageResp) (maxPages : Option Int)
    (pageSize : Int) :
    ∀ fuel page out reqs,
      (∀ pr ∈ reqs, pr.2 = min 100 pageSize) →
      ∀ pr ∈ (fetchGo server maxPages pageSize fuel page out reqs).requests,
        pr.2 = min 100 pageSize := by
  intro fuel
  induction fuel with
  | zero => intro page out reqs h pr hpr; rw [fetchGo] at hpr; exact h pr hpr
  | succ n ih =>
    intro page out reqs h pr hpr
    have hext : ∀ x ∈ reqs ++ [(page, min 100 pageSize)], x.2 = min 100 pageSize := by
      intro x hx
      rcases List.mem_append.mp hx with hx | hx
      · exact h x hx
      · rcases List.mem_singleton.mp hx with rfl
        rfl
    rw [fetchGo] at hpr
    by_cases hmp : (mpActive maxPages && decide (maxPages.getD 0 ≤ page)) = true
    · rw [if_pos hmp] at hpr
      exact h pr hpr
    · rw [if_neg hmp] at hpr
      rcases hs : server page with _ | resp
      · simp only [hs] at hpr
        exact hext pr hpr
      · simp only [hs] at hpr
        by_cases hlast :
            (decide (resp.numberOfPages.getD 1 ≤ resp.currentPage.getD page + 1)) = true
        · rw [if_pos hlast] at hpr
          exact hext pr hpr
        · rw [if_neg hlast] at hpr
          exact ih _ _ _ hext pr hpr

/-- **C10.** With `pageSize > 100`, every issued page request carries the
silently clamped effective size `min(100, pageSize) = 100` — never the
caller-supplied value. -/
theorem claim_C10_clamp (server : Int → Option PageResp) (pageSize : Int)
    (maxPages : Option Int) (fuel : Nat) (h : 100 < pageSize) :
    ∀ pr ∈ (fetchReceiptDescriptors server pageSize maxPages fuel).requests,
      pr.2 = 100 ∧ pr.2 ≠ pageSize := by
  intro pr hpr
  have hsz := fetchGo_pageSize server maxPages pageSize fuel 0 [] [] (by simp) pr hpr
  have hmin : min (100 : Int) pageSize = 100 := by omega
  rw [hsz, hmin]
  exact ⟨rfl, by omega⟩

theorem claim_C10_clamp_witness :
    (100 : Int) < 150 ∧
    ((0 : Int), (100 : Int)) ∈ (fetchReceiptDescriptors badServer 150 none 1).requests ∧
    ((0 : Int), (100 : Int)).2 = 100 ∧ ((0 : Int), (100 : Int)).2 ≠ 150 := by
  refine ⟨by norm_num, by decide, ?_⟩
  exact claim_C10_clamp badServer 150 none 1 (by norm_num) (0, 100) (by decide)

/-- `touchEntry` refreshes a timestamp without changing the key sequence. -/
theorem touchEntry_keys (k : String) (now : Int) :
    ∀ l : List (String × PoolEntry), (touchEntry k now l).map Prod.fst = l.map Prod.fst := by
  intro l
  induction l with
  | nil => rfl
  | cons e es ih =>
    by_cases he : e.1 = k
    · simp [touchEntry, he]
    · simp [touchEntry, he, ih]

/-- `touchEntry` updates exactly the found entry's `lastUsed`. -/
theorem touchEntry_find? (k : String) (now : Int) :
    ∀ (l : List (String × PoolEntry)) (e : String × PoolEntry),
      l.find? (fun x => x.1 = k) = some e →
      (touchEntry k now l).find? (fun x => x.1 = k) =
        some (e.1, { e.2 with lastUsed := now }) := by
  intro l
  induction l with
  | nil => intro e he; simp [List.find?] at he
  | cons x xs ih =>
    intro e he
    by_cases hx : x.1 = k
    · rw [List.find?_cons_of_pos _ (by simpa using hx)] at he
      cases he
      rw [touchEntry, if_pos hx]
      rw [List.find?_cons_of_pos _ (by simpa using hx)]
    · rw [List.find?_cons_of_neg _ (by simpa using hx)] at he
      rw [touchEntry, if_neg hx]
      rw [List.find?_cons_of_neg _ (by simpa using hx)]
      exact ih e he

/-- Keys absent from a `find?`-missed list. -/
theorem find?_none_not_mem (k : String) :
    ∀ l : List (String × PoolEntry), l.find? (fun x => x.1 = k) = none →
      k ∉ l.map Prod.fst := by
  intro l
  induction l with
  | nil => intro _ h; simp at h
  | cons x xs ih =>
    intro hf hmem
    by_cases hx : x.1 = k
    · rw [List.find?_cons_of_pos _ (by simpa using hx)] at hf
      exact Option.noConfusion hf
    · rw [List.find?_cons_of_neg _ (by simpa using hx)] at hf
      rcases List.mem_cons.mp hmem with h1 | h1
      · exact hx h1.symm
      · exact ih hf h1

/-- Eviction only removes entries, so distinct keys stay distinct. -/
theorem evictWarmContexts_nodup (limit : Nat) (st : PoolState)
    (h : (st.entries.map Prod.fst).Nodup) :
    (((evictWarmContexts limit st).entries.map Prod.fst).Nodup) := by
  rw [evictWarmContexts]
  by_cases hle : st.entries.length ≤ limit
  · rw [if_pos hle]
    exact h
  · rw [if_neg hle]
    exact ((List.filter_sublist _).map Prod.fst).nodup h

/-- **C9.** The warm pool keeps at most one context per identity: both pool
operations preserve key distinctness; acquiring for an identity that
already has a context returns that context and merely refreshes its
`lastUsed` timestamp (no new context is created); and with capacity 2,
creating contexts for A, then B, then C closes and evicts A's context. -/
theorem claim_C9_pool :
    (∀ (limit : Nat) (uid : Option String) (headless : Bool) (now : Int) (st : PoolState),
      (st.entries.map Prod.fst).Nodup →
      (((getWarmContext limit uid headless now st).1.entries.map Prod.fst).Nodup)) ∧
    (∀ (limit : Nat) (st : PoolState),
      (st.entries.map Prod.fst).Nodup →
      (((evictWarmContexts limit st).entries.map Prod.fst).Nodup)) ∧
    (∀ (limit : Nat) (uid : Option String) (u : String) (now : Int) (st : PoolState)
        (e : String × PoolEntry),
      truthyS uid = some u →
      st.entries.find? (fun x => x.1 = u) = some e →
      getWarmContext limit uid true now st =
        ({ st with entries := touchEntry u now st.entries }, some e.2.ctx) ∧
      (touchEntry u now st.entries).map Prod.fst = st.entries.map Prod.fst ∧
      (touchEntry u now st.entries).find? (fun x => x.1 = u) =
        some (e.1, { e.2 with lastUsed := now })) ∧
    ((getWarmContext 2 (some "C") true 3
        (getWarmContext 2 (some "B") true 2
          (getWarmContext 2 (some "A") true 1
            { entries := [], nextCtx := 0, closed := [] }).1).1).1.closed = [0] ∧
     (getWarmContext 2 (some "C") true 3
        (getWarmContext 2 (some "B") true 2
          (getWarmContext 2 (some "A") true 1
            { entries := [], nextCtx := 0, closed := [] }).1).1).1.entries.map Prod.fst =
       ["B", "C"] ∧
     (getWarmContext 2 (some "A") true 1
        { entries := [], nextCtx := 0, closed := [] }).2 = some 0) := by
  refine ⟨?_, ?_, ?_, by decide, by decide, by decide⟩
  · intro limit uid headless now st h
    rw [getWarmContext]
    rcases ht : truthyS uid with _ | uu
    · simp only [ht]
      exact h
    · simp only [ht]
      by_cases hh : headless = true
      · subst hh
        simp only [Bool.not_true, if_neg (by simp : ¬ (false = true))]
        rcases hf : st.entries.find? (fun x => x.1 = uu) with _ | e
        · simp only [hf]
          apply evictWarmContexts_nodup
          rw [List.map_append, List.nodup_append]
          refine ⟨h, by simp, ?_⟩
          intro a ha hb
          simp only [List.map_cons, List.map_nil, List.mem_singleton] at hb
          exact find?_none_not_mem uu st.entries hf (hb ▸ ha)
        · simp only [hf]
          simpa [touchEntry_keys] using h
      · have hh2 : headless = false := by
          cases headless
          · rfl
          · exact absurd rfl hh
        subst hh2
        simp only [Bool.not_false, if_pos rfl]
        exact h
  · intro limit st h
    exact evictWarmContexts_nodup limit st h
  · intro limit uid u now st e ht hf
    refine ⟨?_, touchEntry_keys u now st.entries, touchEntry_find? u now st.entries e hf⟩
    rw [getWarmContext, ht]
    simp only [Bool.not_true, if_neg (by simp : ¬ (false = true)), hf]

theorem claim_C9_pool_witness :
    (((PoolState.mk [("A", ⟨0, 1⟩)] 1 []).entries.map Prod.fst).Nodup) ∧
    ((((getWarmContext 2 (some "A") true 5 (PoolState.mk [("A", ⟨0, 1⟩)] 1 [])).1.entries.map
        Prod.fst)).Nodup) ∧
    truthyS (some "A") = some "A" ∧
    (PoolState.mk [("A", ⟨0, 1⟩)] 1 []).entries.find? (fun x => x.1 = "A") =
      some ("A", ⟨0, 1⟩) ∧
    getWarmContext 2 (some "A") true 5 (PoolState.mk [("A", ⟨0, 1⟩)] 1 []) =
      ({ PoolState.mk [("A", ⟨0, 1⟩)] 1 [] with
          entries := touchEntry "A" 5 [("A", ⟨0, 1⟩)] }, some 0) := by
  refine ⟨by decide, ?_, by decide, by decide, ?_⟩
  · exact claim_C9_pool.1 2 (some "A") true 5 _ (by decide)
  · exact (claim_C9_pool.2.2.1 2 (some "A") "A" 5 _ ("A", ⟨0, 1⟩) (by decide) (by decide)).1

/-- The retry loop makes at most `attempt + remaining` attempts in total. -/
theorem retryGo_attempts_le {α : Type} (env : Nat → ApiAttempt α) (retries : Nat) :
    ∀ rem attempt lastErr s0,
      (getJsonWithRetryGo env retries attempt rem lastErr s0).attemptsUsed ≤ attempt + rem := by
  intro rem
  induction rem with
  | zero => intro attempt lastErr s0; simp [getJsonWithRetryGo]
  | succ n ih =>
    intro attempt lastErr s0
    rw [getJsonWithRetryGo]
    rcases hr : runAttempt (env attempt) with e | v
    · simp only [hr]
      have := ih (attempt + 1) (some e) (if attempt < retries && min 2000 (300 * attempt) != 0
        then s0 ++ [min 2000 (300 * attempt)] else s0)
      omega
    · simp only [hr]
      omega

/-- The retry loop reports at least `attempt` attempts. -/
theorem retryGo_attempts_ge {α : Type} (env : Nat → ApiAttempt α) (retries : Nat) :
    ∀ rem attempt lastErr s0,
      attempt ≤ (getJsonWithRetryGo env retries attempt rem lastErr s0).attemptsUsed := by
  intro rem
  induction rem with
  | zero => intro attempt lastErr s0; simp [getJsonWithRetryGo]
  | succ n ih =>
    intro attempt lastErr s0
    rw [getJsonWithRetryGo]
    rcases hr : runAttempt (env attempt) with e | v
    · simp only [hr]
      have := ih (attempt + 1) (some e) (if attempt < retries && min 2000 (300 * attempt) != 0
        then s0 ++ [min 2000 (300 * attempt)] else s0)
      omega
    · simp only [hr]
      omega

/-- With at least one attempt remaining, the loop performs at least one more
attempt. -/
theorem retryGo_attempts_ge1 {α : Type} (env : Nat → ApiAttempt α) (retries : Nat) :
    ∀ n attempt lastErr s0,
      attempt + 1 ≤ (getJsonWithRetryGo env retries attempt (n + 1) lastErr s0).attemptsUsed := by
  intro n attempt lastErr s0
  rw [getJsonWithRetryGo]
  rcases hr : runAttempt (env attempt) with e | v
  · simp only [hr]
    have := retryGo_attempts_ge env retries n (attempt + 1) (some e)
      (if attempt < retries && min 2000 (300 * attempt) != 0
       then s0 ++ [min 2000 (300 * attempt)] else s0)
    omega
  · simp only [hr]
    omega

/-- The backoff sleeps the loop performs are exactly the non-zero values of
`min 2000 (300 * k)` for the failed attempts `k` that allowed a retry. -/
theorem retryGo_sleeps {α : Type} (env : Nat → ApiAttempt α) (retries : Nat) :
    ∀ rem attempt lastErr s0,
      attempt + rem = retries + 1 →
      (getJsonWithRetryGo env retries attempt rem lastErr s0).sleeps =
        s0 ++ ((List.range' attempt
            ((getJsonWithRetryGo env retries attempt rem lastErr s0).attemptsUsed - 1 -
              attempt)).map (fun k => min 2000 (300 * k))).filter (fun b => b ≠ 0) := by
  intro rem
  induction rem with
  | zero =>
    intro attempt lastErr s0 hsum
    simp [getJsonWithRetryGo]
  | succ n ih =>
    intro attempt lastErr s0 hsum
    rw [getJsonWithRetryGo]
    rcases hr : runAttempt (env attempt) with e | v
    · simp only [hr]
      rcases Nat.eq_zero_or_pos n with rfl | hn
      · have hatt : attempt = retries := by omega
        have hcond : (decide (attempt < retries) && (min 2000 (300 * attempt) != 0)) = false := by
          simp [hatt]
        rw [hcond]
        simp only [Bool.false_eq_true, if_neg (by simp : ¬ (False : Prop))]
        simp [getJsonWithRetryGo]
      · have hcond : (decide (attempt < retries)) = true := by simp; omega
        obtain ⟨m, hm⟩ : ∃ m, n = m + 1 := ⟨n - 1, by omega⟩
        have hge := retryGo_attempts_ge1 env retries m (attempt + 1) (some e)
          (if attempt < retries && min 2000 (300 * attempt) != 0
           then s0 ++ [min 2000 (300 * attempt)] else s0)
        rw [← hm] at hge
        have hrec := ih (attempt + 1) (some e)
          (if attempt < retries && min 2000 (300 * attempt) != 0
           then s0 ++ [min 2000 (300 * attempt)] else s0) (by omega)
        set used := (getJsonWithRetryGo env retries (attempt + 1) n (some e)
          (if attempt < retries && min 2000 (300 * attempt) != 0
           then s0 ++ [min 2000 (300 * attempt)] else s0)).attemptsUsed with hused
        have hsplit : used - 1 - attempt = (used - 1 - (attempt + 1)) + 1 := by omega
        rw [hrec, hsplit, List.range'_succ, List.map_cons, List.filter_cons]
        by_cases hz : (min 2000 (300 * attempt)) = 0
        · have : (decide (attempt < retries) && (min 2000 (300 * attempt) != 0)) = false := by
            simp [hz]
          rw [this]
          simp [hz]
        · have : (decide (attempt < retries) && (min 2000 (300 * attempt) != 0)) = true := by
            simp [hz]; omega
          rw [this]
          simp [hz]
    · simp only [hr]
      simp

/-- A successful retry-loop result comes from a successful attempt made
before `attemptsUsed`. -/
theorem retryGo_ok {α : Type} (env : Nat → ApiAttempt α) (retries : Nat) :
    ∀ rem attempt lastErr s0 v,
      (getJsonWithRetryGo env retries attempt rem lastErr s0).result = .ok v →
      ∃ k, attempt ≤ k ∧
        k < (getJsonWithRetryGo env retries attempt rem lastErr s0).attemptsUsed ∧
        runAttempt (env k) = .ok v := by
  intro rem
  induction rem with
  | zero =>
    intro attempt lastErr s0 v hv
    simp [getJsonWithRetryGo] at hv
  | succ n ih =>
    intro attempt lastErr s0 v hv
    rw [getJsonWithRetryGo] at hv ⊢
    rcases hr : runAttempt (env attempt) with e | w
    · simp only [hr] at hv ⊢
      obtain ⟨k, hk1, hk2, hk3⟩ := ih (attempt + 1) (some e) _ v hv
      exact ⟨k, by omega, hk2, hk3⟩
    · simp only [hr] at hv ⊢
      simp at hv
      subst hv
      exact ⟨attempt, le_refl _, by simp, hr⟩

/-- As long as every attempt up to `k` fails and a retry is allowed, the
loop keeps going: at least `min (k + 2) (attempt + rem)` attempts happen. -/
theorem retryGo_min {α : Type} (env : Nat → ApiAttempt α) (retries : Nat) (k : Nat)
    (hfail : ∀ j, j ≤ k → ∃ e, runAttempt (env j) = .error e) :
    ∀ rem attempt lastErr s0, attempt ≤ k + 1 →
      min (k + 2) (attempt + rem) ≤
        (getJsonWithRetryGo env retries attempt rem lastErr s0).attemptsUsed := by
  intro rem
  induction rem with
  | zero =>
    intro attempt lastErr s0 hle
    simp [getJsonWithRetryGo]
  | succ n ih =>
    intro attempt lastErr s0 hle
    rw [getJsonWithRetryGo]
    by_cases hak : attempt ≤ k
    · obtain ⟨e, he⟩ := hfail attempt hak
      rw [he]
      simp only
      have := ih (attempt + 1) (some e) (if attempt < retries && min 2000 (300 * attempt) != 0
        then s0 ++ [min 2000 (300 * attempt)] else s0) (by omega)
      omega
    · have hak1 : attempt = k + 1 := by omega
      rcases hr : runAttempt (env attempt) with e | v
      · simp only []
        have := retryGo_attempts_ge env retries n (attempt + 1) (some e)
          (if attempt < retries && min 2000 (300 * attempt) != 0
           then s0 ++ [min 2000 (300 * attempt)] else s0)
        omega
      · simp only []
        omega

/-- When every attempt fails, the loop throws the error of the final
attempt (attempt number `retries`). -/
theorem retryGo_lastErr {α : Type} (env : Nat → ApiAttempt α) (retries : Nat) (e : ApiError) :
    ∀ rem attempt lastErr s0,
      attempt + rem = retries + 1 →
      (∀ j, attempt ≤ j → j ≤ retries → ∃ err, runAttempt (env j) = .error err) →
      runAttempt (env retries) = .error e →
      (rem = 0 → lastErr = some e) →
      (getJsonWithRetryGo env retries attempt rem lastErr s0).result = .error e := by
  intro rem
  induction rem with
  | zero =>
    intro attempt lastErr s0 hsum hfail hE hlast
    rw [hlast rfl]
    simp [getJsonWithRetryGo]
  | succ n ih =>
    intro attempt lastErr s0 hsum hfail hE hlast
    rw [getJsonWithRetryGo]
    obtain ⟨err, herr⟩ := hfail attempt (le_refl _) (by omega)
    rw [herr]
    simp only
    apply ih (attempt + 1) (some err) _ (by omega)
    · intro j hj1 hj2
      exact hfail j (by omega) hj2
    · exact hE
    · intro hn0
      have hatt : attempt = retries := by omega
      rw [hatt] at herr
      rw [hE] at herr
      cases herr
      rfl

/-- **C5.** `getJsonWithRetry` makes at most `retries + 1` attempts; between
attempts it sleeps exactly the non-zero backoffs `min 2000 (300 * k)` for
each failed 0-based attempt `k` that allowed a retry; a response that is
HTML where JSON was expected is always treated as a failure (never returned
as success) and, while retries remain, is retried like any other failure;
and when every attempt fails, the error of the last attempt is thrown. -/
theorem claim_C5_retry {α : Type} (env : Nat → ApiAttempt α) (retries : Nat) :
    (getJsonWithRetry env retries).attemptsUsed ≤ retries + 1 ∧
    (getJsonWithRetry env retries).sleeps =
      ((List.range ((getJsonWithRetry env retries).attemptsUsed - 1)).map
        (fun k => min 2000 (300 * k))).filter (fun b => b ≠ 0) ∧
    (∀ v, (getJsonWithRetry env retries).result = .ok v →
      ∃ k, k < (getJsonWithRetry env retries).attemptsUsed ∧ runAttempt (env k) = .ok v) ∧
    (∀ (ok : Bool) (status : Int) (ctype body : String) (parsed : Option α),
      htmlLike ctype body = true →
      ∃ e, runAttempt (ApiAttempt.resp ok status ctype body parsed) = Except.error e) ∧
    (∀ k, (∀ j, j ≤ k → ∃ e, runAttempt (env j) = .error e) → k < retries →
      k + 2 ≤ (getJsonWithRetry env retries).attemptsUsed) ∧
    ((∀ j, j ≤ retries → ∃ e, runAttempt (env j) = .error e) →
      ∀ e, runAttempt (env retries) = .error e →
        (getJsonWithRetry env retries).result = .error e) := by
  refine ⟨?_, ?_, ?_, ?_, ?_, ?_⟩
  · have := retryGo_attempts_le env retries (retries + 1) 0 none []
    simpa [getJsonWithRetry] using this
  · have hs := retryGo_sleeps env retries (retries + 1) 0 none [] (by omega)
    have hre : getJsonWithRetry env retries =
        getJsonWithRetryGo env retries 0 (retries + 1) none [] := rfl
    rw [hre, hs, List.range_eq_range']
    simp
  · intro v hv
    obtain ⟨k, _, hk2, hk3⟩ := retryGo_ok env retries (retries + 1) 0 none [] v hv
    exact ⟨k, hk2, hk3⟩
  · intro ok status ctype body parsed hhtml
    rcases ok with _ | _
    · exact ⟨.http status, rfl⟩
    · refine ⟨.htmlBody, ?_⟩
      simp [runAttempt, hhtml]
  · intro k hfail hk
    have h1 := retryGo_min env retries k hfail (retries + 1) 0 none [] (by omega)
    have h2 : min (k + 2) (0 + (retries + 1)) = k + 2 := by omega
    rw [h2] at h1
    exact h1
  · intro hfail e hE
    exact retryGo_lastErr env retries e (retries + 1) 0 none [] (by omega)
      (fun j _ hj2 => hfail j hj2) hE (by omega)

theorem claim_C5_retry_witness :
    (∀ j, j ≤ 2 → ∃ e, runAttempt (envW j) = Except.error e) ∧
    runAttempt (envW 2) = Except.error (ApiError.http 402) ∧
    (getJsonWithRetry envW 2).result = Except.error (ApiError.http 402) ∧
    (getJsonWithRetry envW 2).attemptsUsed = 3 ∧
    (getJsonWithRetry envW 2).sleeps = [300] := by
  refine ⟨fun j _ => ⟨ApiError.http (400 + j), rfl⟩, rfl, ?_, by decide, by decide⟩
  exact (claim_C5_retry envW 2).2.2.2.2.2 (fun j _ => ⟨ApiError.http (400 + j), rfl⟩)
    (ApiError.http 402) rfl

/-- A case-insensitive prefix match fixes the folded first character. -/
theorem swf_head (pat : List Char) (p : Char) (hp : pat.head? = some p) (c : Char)
    (cs : List Char) (h : startsWithFold pat (c :: cs) = true) : lcNat c = lcNat p := by
  cases pat with
  | nil => simp at hp
  | cons q qs =>
    obtain rfl : q = p := by simpa using hp
    simp [startsWithFold, foldEq] at h
    exact h.1

/-- Any line the per-line skip regex accepts starts (case-folded) with
`d`, `s`, `å`, `v` or `k`. -/
theorem skipLineTest_head (c : Char) (cs : List Char) (h : skipLineTest (c :: cs) = true) :
    lcNat c = 100 ∨ lcNat c = 115 ∨ lcNat c = 229 ∨ lcNat c = 118 ∨ lcNat c = 107 := by
  simp only [skipLineTest, pfx, Bool.or_eq_true] at h
  rcases h with ((((h | h) | h) | h) | h) | h
  · exact Or.inl (by rw [swf_head _ 'D' (by decide) _ _ h]; decide)
  · exact Or.inr (Or.inl (by rw [swf_head _ 'S' (by decide) _ _ h]; decide))
  · exact Or.inr (Or.inr (Or.inl (by rw [swf_head _ 'Å' (by decide) _ _ h]; decide)))
  · exact Or.inr (Or.inr (Or.inr (Or.inl (by rw [swf_head _ 'V' (by decide) _ _ h]; decide))))
  · exact Or.inl (by rw [swf_head _ 'D' (by decide) _ _ h]; decide)
  · exact Or.inr (Or.inr (Or.inr (Or.inr (by rw [swf_head _ 'K' (by decide) _ _ h]; decide))))

/-- Any line the discount tests accept starts with a digit, whitespace, or
a character folding to `r` or `w`. -/
theorem discountLine_head (c : Char) (cs : List Char)
    (h : (discTest1 (c :: cs) || discTest2 (c :: cs)) = true) :
    isDigitC c = true ∨ isWsC c = true ∨ lcNat c = 114 ∨ lcNat c = 119 := by
  rw [Bool.or_eq_true] at h
  rcases h with h | h
  · by_cases hdg : isDigitC c = true
    · exact Or.inl hdg
    · exfalso
      rw [Bool.not_eq_true] at hdg
      simp [discTest1, takeDigits, hdg] at h
  · by_cases hw : isWsC c = true
    · exact Or.inr (Or.inl hw)
    · rw [Bool.not_eq_true] at hw
      have hdrop : dropWs (c :: cs) = c :: cs := by simp [dropWs, hw]
      rw [discTest2, hdrop] at h
      simp only [Bool.or_eq_true, Bool.and_eq_true] at h
      rcases h with (h | h) | h
      · exact Or.inr (Or.inr (Or.inl (by rw [swf_head _ 'R' (by decide) _ _ h]; decide)))
      · exact Or.inr (Or.inr (Or.inl (by rw [swf_head _ 'R' (by decide) _ _ h]; decide)))
      · refine Or.inr (Or.inr (Or.inr ?_))
        have hfold : foldEq c 'W' = true := h.1
        rw [foldEq, beq_iff_eq] at hfold
        rw [hfold]
        decide

/-- A discount line is never one of the skipped boilerplate lines. -/
theorem discount_not_skip (s : String) (h : isDiscountLine s = true) :
    skipLineTest s.data = false := by
  rcases hdata : s.data with _ | ⟨c, cs⟩
  · decide
  · by_contra hsk
    rw [Bool.not_eq_false] at hsk
    have h1 := skipLineTest_head c cs hsk
    have h2 : (discTest1 (c :: cs) || discTest2 (c :: cs)) = true := by
      rw [isDiscountLine, hdata] at h
      exact h
    have h3 := discountLine_head c cs h2
    rcases h3 with hdg | hw | hr | hw2
    · simp only [isDigitC, inR, Bool.and_eq_true, decide_eq_true_eq] at hdg
      have hlc : lcNat c = c.toNat := by
        rw [lcNat]
        split_ifs with h1c h2c
        · omega
        · omega
        · rfl
      omega
    · simp only [isWsC, inR, Bool.or_eq_true, Bool.and_eq_true, beq_iff_eq,
        decide_eq_true_eq] at hw
      have hlc : lcNat c = c.toNat := by
        rw [lcNat]
        split_ifs with h1c h2c
        · omega
        · omega
        · rfl
      omega
    · omega
    · omega

/-- A parsed discount value is never positive (`-Math.abs(...)`). -/
theorem discountValue_nonpos (line : String) (v : ℚ) (h : discountValue line = some v) :
    v ≤ 0 := by
  rw [discountValue] at h
  rcases hf : findFirstSuffix discountAt line.data with _ | ⟨tok, rest⟩
  · rw [hf] at h
    simp at h
  · rw [hf] at h
    simp only [Option.some.injEq] at h
    rw [← h]
    exact qnegAbs_nonpos _

/-- **C6.** On a discount line carrying a value `val` (always non-positive),
one loop step adds `val` to the open pending item's discount if a pending
item exists; otherwise adds it to the most recently committed item's
discount if any item exists; otherwise appends the synthetic discount-only
item `{name := "RABATT", price := 0, total := val}`. -/
theorem claim_C6_discount (raw : String) (next? : Option String) (st : PState) (val : ℚ)
    (hd : isDiscountLine raw = true) (hv : discountValue raw = some val) :
    val ≤ 0 ∧
    (∀ p, st.pending = some p →
      stepLine raw next? st =
        ({ st with pending := some { p with discount := some (p.discount.getD 0 + val) } },
         false)) ∧
    (st.pending = none → st.items = [] →
      stepLine raw next? st = ({ st with items := [rabattItem raw val] }, false) ∧
      rabattItem raw val =
        { name := "RABATT", qty := some 1, unit := "st", price := some 0,
          discount := some val, total := some val, raw := raw }) ∧
    (st.pending = none → st.items ≠ [] →
      stepLine raw next? st =
        ({ st with items := updateLast (addDiscount val) st.items }, false)) := by
  have hskip := discount_not_skip raw hd
  refine ⟨discountValue_nonpos raw val hv, ?_, ?_, ?_⟩
  · intro p hp
    simp only [stepLine, hskip, hd, hv, hp, Bool.false_eq_true, if_false, if_true]
    rw [qadd_eq]
  · intro hp hi
    have hie : st.items.isEmpty = true := by
      rw [hi]
      rfl
    refine ⟨?_, rfl⟩
    simp only [stepLine, hskip, hd, hv, hp, hie, Bool.false_eq_true, if_false, if_true]
  · intro hp hi
    have hie : st.items.isEmpty = false := by
      rcases hl : st.items with _ | _
      · exact absurd hl hi
      · rfl
    simp only [stepLine, hskip, hd, hv, hp, hie, Bool.false_eq_true, if_false, if_true]
    have hf : (fun it => { it with discount := some (qadd (it.discount.getD 0) val) }) =
        addDiscount val := by
      funext it
      rw [addDiscount, qadd_eq]
    rw [hf]

theorem claim_C6_discount_witness :
    isDiscountLine "Rab: -5,00" = true ∧
    discountValue "Rab: -5,00" = some (mkRat (-500) 100) ∧
    mkRat (-500) 100 ≤ 0 ∧
    stepLine "Rab: -5,00" none { items := [], pending := none } =
      ({ items := [rabattItem "Rab: -5,00" (mkRat (-500) 100)], pending := none }, false) := by
  refine ⟨by decide, by decide, ?_, ?_⟩
  · exact (claim_C6_discount "Rab: -5,00" none { items := [], pending := none }
      (mkRat (-500) 100) (by decide) (by decide)).1
  · exact ((claim_C6_discount "Rab: -5,00" none { items := [], pending := none }
      (mkRat (-500) 100) (by decide) (by decide)).2.2.1 rfl rfl).1

/-- `updateLast` preserves a pointwise property that the update function
preserves. -/
theorem updateLast_mem (P : Item → Prop) (f : Item → Item) (hf : ∀ x, P x → P (f x)) :
    ∀ l : List Item, (∀ x ∈ l, P x) → ∀ y ∈ updateLast f l, P y := by
  intro l
  induction l with
  | nil => intro _ y hy; simp [updateLast] at hy
  | cons a as ih =>
    intro hl y hy
    rcases as with _ | ⟨b, bs⟩
    · rw [updateLast] at hy
      rcases List.mem_singleton.mp hy with rfl
      exact hf a (hl a (List.mem_singleton.mpr rfl))
    · rw [updateLast] at hy
      rcases List.mem_cons.mp hy with rfl | hy2
      · exact hl y (List.mem_cons_self _ _)
      · exact ih (fun x hx => hl x (List.mem_cons_of_mem _ hx)) y hy2

/-- `commitPending` preserves the discount invariant. -/
theorem commitPending_disc (st : PState)
    (hI : ∀ it ∈ st.items, it.discount.getD 0 ≤ 0)
    (hP : ∀ p, st.pending = some p → p.discount.getD 0 ≤ 0) :
    (∀ it ∈ (commitPending st).items, it.discount.getD 0 ≤ 0) ∧
    (∀ p, (commitPending st).pending = some p → p.discount.getD 0 ≤ 0) := by
  rcases hp : st.pending with _ | p
  · rw [commitPending, hp]
    exact ⟨hI, hP⟩
  · rw [commitPending, hp]
    refine ⟨?_, by intro q hq; simp at hq⟩
    intro it hit
    rcases List.mem_append.mp hit with h1 | h1
    · exact hI it h1
    · rcases List.mem_singleton.mp h1 with rfl
      exact hP p hp

/-- One loop step preserves the discount invariant. -/
theorem stepLine_disc (raw : String) (next? : Option String) (st : PState)
    (hI : ∀ it ∈ st.items, it.discount.getD 0 ≤ 0)
    (hP : ∀ p, st.pending = some p → p.discount.getD 0 ≤ 0) :
    (∀ it ∈ (stepLine raw next? st).1.items, it.discount.getD 0 ≤ 0) ∧
    (∀ p, (stepLine raw next? st).1.pending = some p → p.discount.getD 0 ≤ 0) := by
  rw [stepLine]
  by_cases hskip : skipLineTest raw.data = true
  · rw [if_pos hskip]
    exact ⟨hI, hP⟩
  · rw [Bool.not_eq_true] at hskip
    rw [hskip]
    simp only [Bool.false_eq_true, if_false]
    by_cases hd : isDiscountLine raw = true
    · rw [hd]
      simp only [if_true]
      rcases hv : discountValue raw with _ | val
      · exact ⟨hI, hP⟩
      · have hval := discountValue_nonpos raw val hv
        rcases hp : st.pending with _ | p
        · simp only
          by_cases hie : st.items.isEmpty = true
          · rw [hie]
            simp only [if_true]
            refine ⟨?_, by intro q hq; simp [hp] at hq⟩
            intro it hit
            rcases List.mem_singleton.mp hit with rfl
            simpa [rabattItem] using hval
          · rw [Bool.not_eq_true] at hie
            rw [hie]
            simp only [Bool.false_eq_true, if_false]
            refine ⟨?_, by intro q hq; simp [hp] at hq⟩
            intro it hit
            refine updateLast_mem (fun x => x.discount.getD 0 ≤ 0) _ ?_ st.items hI it hit
            intro x hx
            simp only [Option.getD_some]
            rw [qadd_eq]
            linarith
        · simp only
          refine ⟨hI, ?_⟩
          intro q hq
          simp only [Option.some.injEq] at hq
          rw [← hq]
          simp only [Option.getD_some]
          rw [qadd_eq]
          have := hP p hp
          linarith
    · rw [Bool.not_eq_true] at hd
      rw [hd]
      simp only [Bool.false_eq_true, if_false]
      obtain ⟨hc1, hc2⟩ := commitPending_disc st hI hP
      have happend : ∀ (x : Item), x.discount.getD 0 ≤ 0 →
          ∀ it ∈ (commitPending st).items ++ [x], it.discount.getD 0 ≤ 0 := by
        intro x hx it hit
        rcases List.mem_append.mp hit with h1 | h1
        · exact hc1 it h1
        · rcases List.mem_singleton.mp h1 with rfl
          exact hx
      rcases hw : parseWeightLine raw with _ | w
      · simp only
        rcases hmb : parseMultiBuy raw with _ | mb
        · simp only
          rcases hlm : lastMoney raw with _ | price
          · simp only
            by_cases hbn : bareNameTest raw.data = true
            · rw [hbn]
              simp only [if_true]
              rcases next? with _ | next
              · exact ⟨hc1, hc2⟩
              · simp only
                rcases hnw : parseWeightLine next with _ | nw
                · simp only
                  exact ⟨hc1, hc2⟩
                · simp only
                  refine ⟨hc1, ?_⟩
                  intro q hq
                  simp only [Option.some.injEq] at hq
                  rw [← hq]
                  simp [contPending]
            · rw [Bool.not_eq_true] at hbn
              rw [hbn]
              simp only [Bool.false_eq_true, if_false]
              exact ⟨hc1, hc2⟩
          · simp only
            rcases next? with _ | next
            · simp only
              refine ⟨happend _ (by simp [pricedItem]), hc2⟩
            · simp only
              rcases hnw : parseWeightLine next with _ | nw
              · simp only
                refine ⟨happend _ (by simp [pricedItem]), hc2⟩
              · simp only
                refine ⟨hc1, ?_⟩
                intro q hq
                simp only [Option.some.injEq] at hq
                rw [← hq]
                simp [contPending]
        · simp only
          refine ⟨happend _ (by simp [multiBuyItem]), hc2⟩
      · rcases hp : st.pending with _ | p
        · simp only
          refine ⟨hI, ?_⟩
          intro q hq
          simp only [Option.some.injEq] at hq
          rw [← hq]
          simp [weightPending]
        · simp only
          refine ⟨hI, ?_⟩
          intro q hq
          simp only [Option.some.injEq] at hq
          rw [← hq]
          have := hP p hp
          simpa [mergeWeight] using this

/-- The whole reconstruction loop preserves the discount invariant. -/
theorem parseLoop_disc :
    ∀ (lines : List String) (st : PState),
      (∀ it ∈ st.items, it.discount.getD 0 ≤ 0) →
      (∀ p, st.pending = some p → p.discount.getD 0 ≤ 0) →
      (∀ it ∈ (parseLoop lines st).items, it.discount.getD 0 ≤ 0) ∧
      (∀ p, (parseLoop lines st).pending = some p → p.discount.getD 0 ≤ 0) := by
  intro lines st
  induction lines, st using parseLoop.induct with
  | case1 st => exact fun hI hP => ⟨hI, hP⟩
  | case2 raw st => exact fun hI hP => stepLine_disc raw none st hI hP
  | case3 raw next rest st st1 heq ih =>
    intro hI hP
    have hs := stepLine_disc raw (some next) st hI hP
    rw [heq] at hs
    have hgoal : parseLoop (raw :: next :: rest) st = parseLoop rest st1 := by
      rw [parseLoop, heq]
    rw [hgoal]
    exact ih hs.1 hs.2
  | case4 raw next rest st st1 heq ih =>
    intro hI hP
    have hs := stepLine_disc raw (some next) st hI hP
    rw [heq] at hs
    have hgoal : parseLoop (raw :: next :: rest) st = parseLoop (next :: rest) st1 := by
      rw [parseLoop, heq]
    rw [hgoal]
    exact ih hs.1 hs.2


/-- **C1.** Every item produced by `parseReceiptText` satisfies the
reconciliation invariant: its total is `round(price + discount, 2)` (absent
price/discount counting as 0) and its accumulated discount is never
positive. -/
theorem claim_C1_reconcile (text : String) :
    ∀ it ∈ (parseReceiptText text).items,
      it.total = some (round2 (it.price.getD 0 + it.discount.getD 0)) ∧
      it.discount.getD 0 ≤ 0 := by
  intro it hit
  by_cases ht : text = ""
  · simp [parseReceiptText, ht] at hit
  · simp only [parseReceiptText, if_neg ht] at hit
    simp only [parseItemsFromLines] at hit
    have hit2 := List.mem_of_mem_filter hit
    obtain ⟨it0, hit0, rfl⟩ := List.mem_map.mp hit2
    constructor
    · simp [finalizeItem, round2c_eq, qadd_eq]
    · have hinv := parseLoop_disc (parseGroceryLines text) { items := [], pending := none }
        (by intro x hx; simp at hx) (by intro p hp; simp at hp)
      have hcp := commitPending_disc _ hinv.1 hinv.2
      have hd := hcp.1 it0 hit0
      simpa [finalizeItem] using hd

theorem claim_C1_reconcile_witness :
    c8item ∈ (parseReceiptText c8txt).items ∧
    (c8item.total = some (round2 (c8item.price.getD 0 + c8item.discount.getD 0)) ∧
     c8item.discount.getD 0 ≤ 0) :=
  ⟨by decide, claim_C1_reconcile c8txt c8item (by decide)⟩
